import Mathlib

/-!
# Verification of the mintage physics engine core

A shallow embedding of the tick pipeline of the `mintage` cellular
simulation: the double-buffered world state, the cell-intent model, the
engine's serialized apply phase (`src/physics/engine.rs`), and the two
reference modules (`module_diffusion_thermal.rs`,
`module_transforms_thermal.rs`).

Machine `f32` temperatures and diffusivities are modelled as rationals;
`MaterialId` (a dense `u16` in the source) is modelled as `Nat`.  Rust
`Vec` buffers are modelled as Lean lists; an indexed read `v[i]` is
modelled as `List.getD i default` (the Rust code panics out of bounds, so
theorems carry the in-bounds hypotheses under which the Rust code runs at
all), and an indexed write as `List.set`.
-/

namespace Mintage

/-- Flattened cell index `y * w + x` (`world.rs`, `index`). -/
def index (w x y : Nat) : Nat := y * w + x

/-- Material id.  In the source this is a dense `u16` newtype `MaterialId`. -/
abbrev MaterialId := Nat

/-- Cell-level intents (`physics/intent.rs`, `CellIntent`).  `MoveSwap`'s
fields are named `from`/`to` in the source. -/
inductive CellIntent where
  | Transform (cell : Nat × Nat) (out : MaterialId)
  | Reaction (cell_a cell_b : Nat × Nat) (out_a out_b : MaterialId)
  | MoveSwap (src dst : Nat × Nat)
  deriving DecidableEq

/-- `CellIntent::affected_cells` (`physics/intent.rs`). -/
def CellIntent.affected_cells : CellIntent → List (Nat × Nat)
  | .Transform cell _ => [cell]
  | .Reaction cell_a cell_b _ _ => [cell_a, cell_b]
  | .MoveSwap src dst => [src, dst]

/-- The state mutated by `Engine::apply_intents`: the engine's changed-set
(dense bitmap plus sparse index list) together with the `next` buffers
of the world reachable through `NextCtx`. -/
structure ApplyState where
  changedDense : List Bool
  changedSparse : List Nat
  nextMat : List MaterialId
  nextTemp : List ℚ
  deriving DecidableEq

/-- The conflict test of `Engine::apply_intents`: some affected cell is
already marked changed this tick (`engine.rs` line 83). -/
def intent_blocked (w : Nat) (dense : List Bool) (it : CellIntent) : Bool :=
  it.affected_cells.any fun c => dense.getD (index w c.1 c.2) false

/-- Mark a list of cells changed: set the dense bit and push the index onto
the sparse list, in order (`engine.rs` lines 88-92). -/
def markCells (w : Nat) (cells : List (Nat × Nat)) (s : ApplyState) : ApplyState :=
  cells.foldl
    (fun s c =>
      { s with
        changedDense := s.changedDense.set (index w c.1 c.2) true
        changedSparse := s.changedSparse ++ [index w c.1 c.2] })
    s

/-- The body of the intent loop of `Engine::apply_intents` for a single
intent: skip on conflict, otherwise mark the affected cells and apply the
variant's writes to `next` (`engine.rs` lines 79-117).  `MoveSwap` reads
material ids from `cur` and temperatures from `next` as it stands
(`peek_future_temp`). -/
def apply_intent (w : Nat) (curMat : List MaterialId) (s : ApplyState)
    (it : CellIntent) : ApplyState :=
  if intent_blocked w s.changedDense it then s
  else
    let s' := markCells w it.affected_cells s
    match it with
    | .Transform cell out =>
        { s' with nextMat := s'.nextMat.set (index w cell.1 cell.2) out }
    | .Reaction cell_a cell_b out_a out_b =>
        { s' with
          nextMat := (s'.nextMat.set (index w cell_a.1 cell_a.2) out_a).set
            (index w cell_b.1 cell_b.2) out_b }
    | .MoveSwap src dst =>
        let mat_from := curMat.getD (index w src.1 src.2) 0
        let mat_to := curMat.getD (index w dst.1 dst.2) 0
        let temp_from := s'.nextTemp.getD (index w src.1 src.2) 0
        let temp_to := s'.nextTemp.getD (index w dst.1 dst.2) 0
        { s' with
          nextMat := (s'.nextMat.set (index w src.1 src.2) mat_to).set
            (index w dst.1 dst.2) mat_from
          nextTemp := (s'.nextTemp.set (index w src.1 src.2) temp_to).set
            (index w dst.1 dst.2) temp_from }

/-- `Engine::apply_intents`: the loop over one module's intent list. -/
def apply_intents (w : Nat) (curMat : List MaterialId) (s : ApplyState)
    (intents : List CellIntent) : ApplyState :=
  intents.foldl (apply_intent w curMat) s

/-- `Engine::apply_delta_temp`: `for i in 0..(w*h) { next.add_temp_i(i, delta_temp[i]) }`. -/
def apply_delta_temp (w h : Nat) (s : ApplyState) (delta : List ℚ) : ApplyState :=
  { s with
    nextTemp := (List.range (w * h)).foldl
      (fun t i => t.set i (t.getD i 0 + delta.getD i 0)) s.nextTemp }

/-- `ModuleOutput` (`physics/module.rs`). -/
inductive ModuleOutput where
  | CellIntents (intents : List CellIntent)
  | DeltaTemp (delta : List ℚ)
  deriving DecidableEq

/-- One iteration of the output loop in `Engine::step` (lines 48-57). -/
def apply_output (w h : Nat) (curMat : List MaterialId) (s : ApplyState) :
    ModuleOutput → ApplyState
  | .CellIntents intents => apply_intents w curMat s intents
  | .DeltaTemp delta => apply_delta_temp w h s delta

/-- The full serialized apply loop of `Engine::step`: outputs are processed
in module registration order. -/
def apply_outputs (w h : Nat) (curMat : List MaterialId) (s : ApplyState)
    (outputs : List ModuleOutput) : ApplyState :=
  outputs.foldl (apply_output w h curMat) s

/-- The world's double-buffered cell arrays (`world.rs`, `World`).  The
`entities` buffer is a unit placeholder in the source and is omitted. -/
structure World where
  w : Nat
  h : Nat
  curMat : List MaterialId
  nextMat : List MaterialId
  curTemp : List ℚ
  nextTemp : List ℚ
  deriving DecidableEq

/-- `PostRunCtx` (`world.rs` lines 175-184), restricted to the cell buffers. -/
structure PostRunCtx where
  w : Nat
  h : Nat
  curr_cell_mat_ids : List MaterialId
  next_cell_mat_ids : List MaterialId
  cell_temps : List ℚ
  deriving DecidableEq

/-- `World::ctx_post_run` (`world.rs` lines 68-79): exposes the `cur` and
`next` material-id buffers and the `cur` temperature buffer. -/
def World.ctx_post_run (wd : World) : PostRunCtx :=
  { w := wd.w
    h := wd.h
    curr_cell_mat_ids := wd.curMat
    next_cell_mat_ids := wd.nextMat
    cell_temps := wd.curTemp }

/-- The engine's per-tick bookkeeping (`engine.rs`, `Engine`): modules are
abstracted into the output vector their gather phase produced. -/
structure Engine where
  changedDense : List Bool
  changedSparse : List Nat
  deriving DecidableEq

/-- `Engine::new`. -/
def Engine.new (world_w world_h : Nat) : Engine :=
  { changedDense := List.replicate (world_w * world_h) false
    changedSparse := [] }

/-- Result of one `Engine::step`: the stepped world and engine, plus the
changed-cells slice handed to every module's `post_run`. -/
structure StepResult where
  world : World
  engine : Engine
  postChanged : List Nat
  deriving DecidableEq

/-- `Engine::step` with the gathered module outputs supplied as data:
sync `next ← cur`, apply all outputs in order, hand `changed_sparse` to
`post_run`, reset the changed-set, and swap `cur ↔ next`. -/
def Engine.step (e : Engine) (wd : World) (outputs : List ModuleOutput) : StepResult :=
  let s := apply_outputs wd.w wd.h wd.curMat
    { changedDense := e.changedDense
      changedSparse := e.changedSparse
      nextMat := wd.curMat
      nextTemp := wd.curTemp } outputs
  let dense := s.changedSparse.foldl (fun d i => d.set i false) s.changedDense
  { world :=
      { wd with
        curMat := s.nextMat
        curTemp := s.nextTemp
        nextMat := wd.curMat
        nextTemp := wd.curTemp }
    engine := { changedDense := dense, changedSparse := [] }
    postChanged := s.changedSparse }

/-- Ghost instrumentation of `Engine::apply_intents`: the same fold as
`apply_intents` but also collecting, in order, the intents that were not
skipped.  The skip test is the shared `intent_blocked`, so this cannot
drift from `apply_intent`. -/
def apply_intents_tracked (w : Nat) (curMat : List MaterialId) :
    ApplyState × List CellIntent → List CellIntent → ApplyState × List CellIntent
  | p, [] => p
  | p, it :: l =>
      apply_intents_tracked w curMat
        (apply_intent w curMat p.1 it,
         if intent_blocked w p.1.changedDense it then p.2 else p.2 ++ [it]) l

/-- Ghost instrumentation of the output loop of `Engine::step`: as
`apply_outputs`, also collecting the applied (non-skipped) cell intents. -/
def apply_outputs_tracked (w h : Nat) (curMat : List MaterialId) :
    ApplyState × List CellIntent → List ModuleOutput → ApplyState × List CellIntent
  | p, [] => p
  | p, .CellIntents intents :: outs =>
      apply_outputs_tracked w h curMat (apply_intents_tracked w curMat p intents) outs
  | p, .DeltaTemp delta :: outs =>
      apply_outputs_tracked w h curMat (apply_delta_temp w h p.1 delta, p.2) outs

/-- The cell intents carried by a module output (`ModuleOutput::CellIntents`);
a `DeltaTemp` output carries none. -/
def intentsOf : ModuleOutput → List CellIntent
  | .CellIntents intents => intents
  | .DeltaTemp _ => []

/-- The changed-set representation invariant: the dense bitmap is `true`
exactly at the indices present in the sparse list. -/
def ChangedInv (dense : List Bool) (sparse : List Nat) : Prop :=
  ∀ i, dense.getD i false = true ↔ i ∈ sparse

/-- The four scan orders of `rand_iter_dir` (`physics/util.rs` lines 43-79):
`r = 0` is row-major TL→BR, `r = 1` reverses the row order, `r = 2` reverses
both loops, `r = 3` reverses only the inner column loop.  The list holds the
`(x, y)` pairs in the order `iter_fn` is fired. -/
def scanOrder (r : Fin 4) (w h : Nat) : List (Nat × Nat) :=
  let ys := if r.val = 1 ∨ r.val = 2 then (List.range h).reverse else List.range h
  let xs := if r.val = 2 ∨ r.val = 3 then (List.range w).reverse else List.range w
  ys.flatMap fun y => xs.map fun x => (x, y)

/-- `harmonic_mean` (`module_diffusion_thermal.rs` lines 10-14). -/
def harmonic_mean (a b : ℚ) : ℚ :=
  if a + b = 0 then 0 else 2 * a * b / (a + b)

/-- `ModuleDiffusionThermal::gx_idx`: flat index of the horizontal edge
between `(x,y)` and `(x+1,y)`. -/
def gx_idx (x y w : Nat) : Nat := y * (w - 1) + x

/-- `ModuleDiffusionThermal::gy_idx`: flat index of the vertical edge
between `(x,y)` and `(x,y+1)`. -/
def gy_idx (x y w : Nat) : Nat := y * w + x

/-- The per-cell diffusivity read `diff_of[mat_ids[i].0 as usize]`. -/
def diffAt (diff_of : List ℚ) (mats : List MaterialId) (i : Nat) : ℚ :=
  diff_of.getD (mats.getD i 0) 0

/-- The thermal-diffusion module's private edge-conductance tables
(`module_diffusion_thermal.rs`, `ModuleDiffusionThermal`; the RNG only
chooses the scan order and is abstracted into the `Fin 4` argument of
`diffusion_run`). -/
structure ModuleDiffusionThermal where
  gx : List ℚ
  gy : List ℚ
  deriving DecidableEq

/-- `ModuleDiffusionThermal::new`: every edge computed from the current
material-id grid (lines 27-64). -/
def ModuleDiffusionThermal.new (w h : Nat) (diff_of : List ℚ)
    (mat_ids : List MaterialId) : ModuleDiffusionThermal :=
  let gx := (List.range h).foldl
    (fun gx y =>
      (List.range (w - 1)).foldl
        (fun gx x =>
          gx.set (gx_idx x y w)
            (harmonic_mean (diffAt diff_of mat_ids (y * w + x))
              (diffAt diff_of mat_ids (y * w + x + 1))))
        gx)
    (List.replicate ((w - 1) * h) 0)
  let gy := (List.range (h - 1)).foldl
    (fun gy y =>
      (List.range w).foldl
        (fun gy x =>
          gy.set (gy_idx x y w)
            (harmonic_mean (diffAt diff_of mat_ids (y * w + x))
              (diffAt diff_of mat_ids (y * w + x + w))))
        gy)
    (List.replicate (w * (h - 1)) 0)
  { gx := gx, gy := gy }

/-- `ModuleDiffusionThermal::update_conductance_local` (lines 67-98):
recompute the up-to-four edges incident to cell `i` from the future
(next-frame) material ids. -/
def update_conductance_local (w h i : Nat) (diff_of : List ℚ)
    (future_mat_ids : List MaterialId) (m : ModuleDiffusionThermal) :
    ModuleDiffusionThermal :=
  let x := i % w
  let y := i / w
  let d := diffAt diff_of future_mat_ids i
  let m1 := if 0 < y then
      { m with gy :=
          m.gy.set (gy_idx x (y - 1) w) (harmonic_mean d (diffAt diff_of future_mat_ids (i - w))) }
    else m
  let m2 := if y + 1 < h then
      { m1 with gy :=
          m1.gy.set (gy_idx x y w) (harmonic_mean d (diffAt diff_of future_mat_ids (i + w))) }
    else m1
  let m3 := if 0 < x then
      { m2 with gx :=
          m2.gx.set (gx_idx (x - 1) y w) (harmonic_mean d (diffAt diff_of future_mat_ids (i - 1))) }
    else m2
  let m4 := if x + 1 < w then
      { m3 with gx :=
          m3.gx.set (gx_idx x y w) (harmonic_mean d (diffAt diff_of future_mat_ids (i + 1))) }
    else m3
  m4

/-- `ModuleDiffusionThermal::post_run` (lines 154-162): refresh the edges
incident to each changed cell from the `next`-frame material ids. -/
def diffusion_post_run (w h : Nat) (diff_of : List ℚ)
    (future_mat_ids : List MaterialId) (changed : List Nat)
    (m : ModuleDiffusionThermal) : ModuleDiffusionThermal :=
  changed.foldl (fun m i => update_conductance_local w h i diff_of future_mat_ids m) m

/-- The flux accumulated for cell `(x,y)` by the body of the scan closure in
`ModuleDiffusionThermal::run` (lines 117-148): one conditional term per
in-bounds neighbor. -/
def fluxAt (w h : Nat) (m : ModuleDiffusionThermal) (temps : List ℚ)
    (x y : Nat) : ℚ :=
  let i := y * w + x
  let t := temps.getD i 0
  (if 0 < y then m.gy.getD (gy_idx x (y - 1) w) 0 * (temps.getD (i - w) 0 - t) else 0)
  + (if y + 1 < h then m.gy.getD (gy_idx x y w) 0 * (temps.getD (i + w) 0 - t) else 0)
  + (if 0 < x then m.gx.getD (gx_idx (x - 1) y w) 0 * (temps.getD (i - 1) 0 - t) else 0)
  + (if x + 1 < w then m.gx.getD (gx_idx x y w) 0 * (temps.getD (i + 1) 0 - t) else 0)

/-- `ModuleDiffusionThermal::run` (lines 110-152): accumulate
`delta_temp[i_loc] += flux` over the randomized scan; `r` is the scan
direction drawn by `rand_iter_dir`. -/
def diffusion_run (r : Fin 4) (w h : Nat) (m : ModuleDiffusionThermal)
    (temps : List ℚ) : List ℚ :=
  (scanOrder r w h).foldl
    (fun delta c =>
      delta.set (c.2 * w + c.1) (delta.getD (c.2 * w + c.1) 0 + fluxAt w h m temps c.1 c.2))
    (List.replicate (w * h) 0)

/-- Fold the diffusion module's `post_run` over a sequence of ticks, each
supplying that tick's changed list and next-frame material grid. -/
def diffusion_post_runs (w h : Nat) (diff_of : List ℚ)
    (m : ModuleDiffusionThermal) :
    List (List Nat × List MaterialId) → ModuleDiffusionThermal
  | [] => m
  | st :: rest =>
      diffusion_post_runs w h diff_of
        (diffusion_post_run w h diff_of st.2 st.1 m) rest

/-- The engine guarantee the diffusion cache relies on: each tick's
next-frame grid agrees with the previous frame outside that tick's changed
list, and changed indices are in bounds. -/
def chainAgrees (w h : Nat) (mats : List MaterialId) :
    List (List Nat × List MaterialId) → Prop
  | [] => True
  | st :: rest =>
      (∀ j ∈ st.1, j < w * h) ∧
      (∀ j, j ∉ st.1 → st.2.getD j 0 = mats.getD j 0) ∧
      chainAgrees w h st.2 rest

/-- The material grid after a sequence of ticks. -/
def lastMats (mats : List MaterialId) :
    List (List Nat × List MaterialId) → List MaterialId
  | [] => mats
  | st :: rest => lastMats st.2 rest

/-- Conductance consistency (spec §8 invariant 5): every in-bounds edge
stores the harmonic mean of its endpoints' diffusivities under grid `mats`. -/
def DiffConsistent (w h : Nat) (diff_of : List ℚ) (mats : List MaterialId)
    (m : ModuleDiffusionThermal) : Prop :=
  (∀ x y, x + 1 < w → y < h →
    m.gx.getD (gx_idx x y w) 0
      = harmonic_mean (diffAt diff_of mats (y * w + x)) (diffAt diff_of mats (y * w + x + 1))) ∧
  (∀ x y, x < w → y + 1 < h →
    m.gy.getD (gy_idx x y w) 0
      = harmonic_mean (diffAt diff_of mats (y * w + x)) (diffAt diff_of mats (y * w + x + w)))

/-- Proof-internal (ghost) refinement of `DiffConsistent` used while the
changed list is being replayed: an edge is required to be consistent with
the new grid `mats'` once both its endpoints kept their diffusivity from
`mats`, or once either endpoint is among the already-processed cells `P`. -/
def PartialConsistent (w h : Nat) (diff_of : List ℚ) (mats mats' : List MaterialId)
    (P : List Nat) (m : ModuleDiffusionThermal) : Prop :=
  (∀ x y, x + 1 < w → y < h →
    ((diffAt diff_of mats' (y * w + x) = diffAt diff_of mats (y * w + x) ∧
      diffAt diff_of mats' (y * w + x + 1) = diffAt diff_of mats (y * w + x + 1)) ∨
      (y * w + x) ∈ P ∨ (y * w + x + 1) ∈ P) →
    m.gx.getD (gx_idx x y w) 0
      = harmonic_mean (diffAt diff_of mats' (y * w + x))
          (diffAt diff_of mats' (y * w + x + 1))) ∧
  (∀ x y, x < w → y + 1 < h →
    ((diffAt diff_of mats' (y * w + x) = diffAt diff_of mats (y * w + x) ∧
      diffAt diff_of mats' (y * w + x + w) = diffAt diff_of mats (y * w + x + w)) ∨
      (y * w + x) ∈ P ∨ (y * w + x + w) ∈ P) →
    m.gy.getD (gy_idx x y w) 0
      = harmonic_mean (diffAt diff_of mats' (y * w + x))
          (diffAt diff_of mats' (y * w + x + w)))

/-- The fields of `Material` (`material.rs`) read by the thermal-transform
module: the resolved transform targets and thresholds. -/
structure Material where
  transform_cold_mat_id : Option MaterialId
  transform_cold_temp : ℚ
  transform_hot_mat_id : Option MaterialId
  transform_hot_temp : ℚ
  deriving DecidableEq

/-- The hot-transform check of `ModuleTransformsThermal::run` (lines 54-60):
fires when a hot transform is defined and the temperature exceeds its
threshold. -/
def hot_check (mat : Material) (t : ℚ) (c : Nat × Nat) : Option CellIntent :=
  match mat.transform_hot_mat_id with
  | some hot_id => if mat.transform_hot_temp < t then some (.Transform c hot_id) else none
  | none => none

/-- The body of the scan closure of `ModuleTransformsThermal::run`
(lines 36-62) for one cell: parity skip, then the cold check (early return),
then the hot check. -/
def transform_check (db : List Material) (mats : List MaterialId)
    (temps : List ℚ) (w : Nat) (toggle : Bool) (c : Nat × Nat) :
    Option CellIntent :=
  if (c.1 + c.2) % 2 = (if toggle then 1 else 0) then none
  else
    let i := index w c.1 c.2
    let t := temps.getD i 0
    match db[mats.getD i 0]? with
    | none => none
    | some mat =>
      match mat.transform_cold_mat_id with
      | some cold_id =>
          if t < mat.transform_cold_temp then some (.Transform c cold_id)
          else hot_check mat t c
      | none => hot_check mat t c

/-- The thermal-transform module's private state
(`module_transforms_thermal.rs`). -/
structure ModuleTransformsThermal where
  checkerboard_toggle : Bool
  deriving DecidableEq

/-- `intents.push(..)` on a fired check, no-op otherwise. -/
def push_intent (acc : List CellIntent) : Option CellIntent → List CellIntent
  | some it => acc ++ [it]
  | none => acc

/-- `ModuleTransformsThermal::run` (lines 30-65): flip the checkerboard
toggle, then emit transform intents over the randomized scan; `r` is the
scan direction drawn by `rand_iter_dir`. -/
def transforms_run (db : List Material) (mats : List MaterialId)
    (temps : List ℚ) (w h : Nat) (r : Fin 4) (m : ModuleTransformsThermal) :
    ModuleTransformsThermal × List CellIntent :=
  let toggle := !m.checkerboard_toggle
  let intents := (scanOrder r w h).foldl
    (fun acc c => push_intent acc (transform_check db mats temps w toggle c))
    []
  ({ checkerboard_toggle := toggle }, intents)

/-- `true` for the intents the thermal-transform claims inspect: a
`Transform` targeting the given cell. -/
def isTransformOf (cell : Nat × Nat) : CellIntent → Bool
  | .Transform c _ => c = cell
  | _ => false

/-! ## List helper lemmas -/

theorem getD_set_of_ne {α : Type _} (l : List α) (i j : Nat) (v d : α) (h : i ≠ j) :
    (l.set i v).getD j d = l.getD j d := by
  simp [List.getD, List.getElem?_set_ne h]

theorem getD_set_self {α : Type _} (l : List α) (i : Nat) (v d : α) (h : i < l.length) :
    (l.set i v).getD i d = v := by
  simp [List.getD, List.getElem?_set_self, h]

theorem getD_set_true (l : List Bool) (i j : Nat) (h : l.getD j false = true) :
    (l.set i true).getD j false = true := by
  rcases eq_or_ne i j with rfl | hne
  · rcases lt_or_le i l.length with hlt | hle
    · exact getD_set_self l i true false hlt
    · rw [List.set_eq_of_length_le hle]; exact h
  · rw [getD_set_of_ne l i j true false hne]; exact h

/-! ## Marking lemmas -/

theorem markCells_nil (w : Nat) (s : ApplyState) : markCells w [] s = s := rfl

theorem markCells_cons (w : Nat) (c : Nat × Nat) (cs : List (Nat × Nat)) (s : ApplyState) :
    markCells w (c :: cs) s
      = markCells w cs
          { s with
            changedDense := s.changedDense.set (index w c.1 c.2) true
            changedSparse := s.changedSparse ++ [index w c.1 c.2] } := rfl

theorem markCells_nextMat (w : Nat) (cells : List (Nat × Nat)) :
    ∀ s : ApplyState, (markCells w cells s).nextMat = s.nextMat := by
  induction cells with
  | nil => intro s; rfl
  | cons c cs ih => intro s; rw [markCells_cons]; exact ih _

theorem markCells_nextTemp (w : Nat) (cells : List (Nat × Nat)) :
    ∀ s : ApplyState, (markCells w cells s).nextTemp = s.nextTemp := by
  induction cells with
  | nil => intro s; rfl
  | cons c cs ih => intro s; rw [markCells_cons]; exact ih _

theorem markCells_sparse (w : Nat) (cells : List (Nat × Nat)) :
    ∀ s : ApplyState,
      (markCells w cells s).changedSparse
        = s.changedSparse ++ cells.map (fun c => index w c.1 c.2) := by
  induction cells with
  | nil => intro s; simp [markCells_nil]
  | cons c cs ih => intro s; rw [markCells_cons, ih]; simp

theorem markCells_dense_length (w : Nat) (cells : List (Nat × Nat)) :
    ∀ s : ApplyState, (markCells w cells s).changedDense.length = s.changedDense.length := by
  induction cells with
  | nil => intro s; rfl
  | cons c cs ih => intro s; rw [markCells_cons, ih]; simp

theorem markCells_dense_mono (w : Nat) (cells : List (Nat × Nat)) :
    ∀ (s : ApplyState) (i : Nat), s.changedDense.getD i false = true →
      (markCells w cells s).changedDense.getD i false = true := by
  induction cells with
  | nil => intro s i h; exact h
  | cons c cs ih =>
    intro s i h
    rw [markCells_cons]
    exact ih _ i (getD_set_true _ _ _ h)

theorem markCells_dense_of_mem (w : Nat) (cells : List (Nat × Nat)) :
    ∀ (s : ApplyState) (c : Nat × Nat), c ∈ cells →
      index w c.1 c.2 < s.changedDense.length →
      (markCells w cells s).changedDense.getD (index w c.1 c.2) false = true := by
  induction cells with
  | nil => intro s c hc; exact absurd hc (List.not_mem_nil c)
  | cons c0 cs ih =>
    intro s c hc hlen
    rw [markCells_cons]
    rcases List.mem_cons.mp hc with rfl | hmem
    · exact markCells_dense_mono w cs _ _ (getD_set_self _ _ _ _ hlen)
    · exact ih _ c hmem (by simpa using hlen)

/-! ## Apply-phase helper lemmas -/

theorem apply_intent_skip (w : Nat) (curMat : List MaterialId) (s : ApplyState)
    (it : CellIntent) (h : intent_blocked w s.changedDense it = true) :
    apply_intent w curMat s it = s := by
  simp [apply_intent, h]

theorem moveswap_nextMat_eq (w : Nat) (curMat : List MaterialId) (s : ApplyState)
    (src dst : Nat × Nat)
    (hblk : intent_blocked w s.changedDense (.MoveSwap src dst) = false) :
    (apply_intent w curMat s (.MoveSwap src dst)).nextMat
      = (s.nextMat.set (index w src.1 src.2) (curMat.getD (index w dst.1 dst.2) 0)).set
          (index w dst.1 dst.2) (curMat.getD (index w src.1 src.2) 0) := by
  simp only [apply_intent, hblk, Bool.false_eq_true, if_false]
  rw [markCells_nextMat]

theorem moveswap_nextTemp_eq (w : Nat) (curMat : List MaterialId) (s : ApplyState)
    (src dst : Nat × Nat)
    (hblk : intent_blocked w s.changedDense (.MoveSwap src dst) = false) :
    (apply_intent w curMat s (.MoveSwap src dst)).nextTemp
      = (s.nextTemp.set (index w src.1 src.2) (s.nextTemp.getD (index w dst.1 dst.2) 0)).set
          (index w dst.1 dst.2) (s.nextTemp.getD (index w src.1 src.2) 0) := by
  simp only [apply_intent, hblk, Bool.false_eq_true, if_false]
  rw [markCells_nextTemp]

theorem moveswap_getD (w : Nat) (curMat : List MaterialId) (s : ApplyState)
    (src dst : Nat × Nat)
    (hblk : intent_blocked w s.changedDense (.MoveSwap src dst) = false)
    (hne : index w src.1 src.2 ≠ index w dst.1 dst.2)
    (hm1 : index w src.1 src.2 < s.nextMat.length)
    (hm2 : index w dst.1 dst.2 < s.nextMat.length)
    (ht1 : index w src.1 src.2 < s.nextTemp.length)
    (ht2 : index w dst.1 dst.2 < s.nextTemp.length) :
    (apply_intent w curMat s (.MoveSwap src dst)).nextMat.getD (index w src.1 src.2) 0
      = curMat.getD (index w dst.1 dst.2) 0 ∧
    (apply_intent w curMat s (.MoveSwap src dst)).nextMat.getD (index w dst.1 dst.2) 0
      = curMat.getD (index w src.1 src.2) 0 ∧
    (apply_intent w curMat s (.MoveSwap src dst)).nextTemp.getD (index w src.1 src.2) 0
      = s.nextTemp.getD (index w dst.1 dst.2) 0 ∧
    (apply_intent w curMat s (.MoveSwap src dst)).nextTemp.getD (index w dst.1 dst.2) 0
      = s.nextTemp.getD (index w src.1 src.2) 0 := by
  refine ⟨?_, ?_, ?_, ?_⟩
  · rw [moveswap_nextMat_eq w curMat s src dst hblk,
      getD_set_of_ne _ _ _ _ _ (Ne.symm hne), getD_set_self _ _ _ _ hm1]
  · rw [moveswap_nextMat_eq w curMat s src dst hblk, getD_set_self]
    simpa using hm2
  · rw [moveswap_nextTemp_eq w curMat s src dst hblk,
      getD_set_of_ne _ _ _ _ _ (Ne.symm hne), getD_set_self _ _ _ _ ht1]
  · rw [moveswap_nextTemp_eq w curMat s src dst hblk, getD_set_self]
    simpa using ht2

/-! ## Claim theorems: engine apply phase -/

/-- **C1.** In the serialized apply phase, each cell intent is atomic: if
any affected cell is already marked changed this tick the intent is skipped
entirely (the state, including both `next` buffers, is untouched);
otherwise every affected cell is marked changed — dense bit set, index
pushed onto the sparse list in order — and the variant's writes are applied
to `next`.  In particular a skipped two-cell Reaction or MoveSwap modifies
neither of its cells. -/
theorem C1_apply_intent_atomic (w : Nat) (curMat : List MaterialId)
    (s : ApplyState) (it : CellIntent)
    (hb : ∀ c ∈ it.affected_cells, index w c.1 c.2 < s.changedDense.length) :
    (intent_blocked w s.changedDense it = true → apply_intent w curMat s it = s) ∧
    (intent_blocked w s.changedDense it = false →
      (∀ c ∈ it.affected_cells,
        (apply_intent w curMat s it).changedDense.getD (index w c.1 c.2) false = true) ∧
      (apply_intent w curMat s it).changedSparse
        = s.changedSparse ++ it.affected_cells.map (fun c => index w c.1 c.2) ∧
      (match it with
       | .Transform cell out =>
           (apply_intent w curMat s it).nextMat = s.nextMat.set (index w cell.1 cell.2) out ∧
           (apply_intent w curMat s it).nextTemp = s.nextTemp
       | .Reaction cell_a cell_b out_a out_b =>
           (apply_intent w curMat s it).nextMat
             = (s.nextMat.set (index w cell_a.1 cell_a.2) out_a).set
                 (index w cell_b.1 cell_b.2) out_b ∧
           (apply_intent w curMat s it).nextTemp = s.nextTemp
       | .MoveSwap src dst =>
           (apply_intent w curMat s it).nextMat
             = (s.nextMat.set (index w src.1 src.2) (curMat.getD (index w dst.1 dst.2) 0)).set
                 (index w dst.1 dst.2) (curMat.getD (index w src.1 src.2) 0) ∧
           (apply_intent w curMat s it).nextTemp
             = (s.nextTemp.set (index w src.1 src.2) (s.nextTemp.getD (index w dst.1 dst.2) 0)).set
                 (index w dst.1 dst.2) (s.nextTemp.getD (index w src.1 src.2) 0))) := by
  constructor
  · intro hblk
    simp [apply_intent, hblk]
  · intro hblk
    refine ⟨?_, ?_, ?_⟩
    · intro c hc
      cases it <;>
        simp only [apply_intent, hblk, Bool.false_eq_true, if_false] <;>
        exact markCells_dense_of_mem w _ _ c hc (hb c hc)
    · cases it <;>
        simp only [apply_intent, hblk, Bool.false_eq_true, if_false] <;>
        exact markCells_sparse w _ _
    · cases it <;>
        simp only [apply_intent, hblk, Bool.false_eq_true, if_false] <;>
        exact ⟨by rw [markCells_nextMat], by rw [markCells_nextTemp]⟩

/-- Witness for C1 at a concrete input: a lone `Transform` on a fresh 2×2
world is applied and marks exactly cell index 3. -/
theorem C1_witness :
    (∀ c ∈ (CellIntent.Transform (1, 1) 2).affected_cells,
      index 2 c.1 c.2 < ([false, false, false, false] : List Bool).length) ∧
    (apply_intent 2 [0, 0, 0, 0]
        { changedDense := [false, false, false, false], changedSparse := [],
          nextMat := [0, 0, 0, 0], nextTemp := [0, 0, 0, 0] }
        (.Transform (1, 1) 2)).changedSparse = [3] := by
  refine ⟨by decide, ?_⟩
  have h := (C1_apply_intent_atomic 2 [0, 0, 0, 0]
      { changedDense := [false, false, false, false], changedSparse := [],
        nextMat := [0, 0, 0, 0], nextTemp := [0, 0, 0, 0] }
      (.Transform (1, 1) 2) (by decide)).2 (by decide)
  exact h.2.1.trans (by decide)

/-- **C2.** For an applied MoveSwap from `src` to `dst`: the material ids
written to `next` come from the `cur` buffer (crosswise), while the
temperatures exchanged are the `next`-buffer values as they stand at the
moment the intent is applied (`peek_future_temp`). -/
theorem C2_moveswap_semantics (w : Nat) (curMat : List MaterialId)
    (s : ApplyState) (src dst : Nat × Nat)
    (hblk : intent_blocked w s.changedDense (.MoveSwap src dst) = false)
    (hne : index w src.1 src.2 ≠ index w dst.1 dst.2)
    (hm1 : index w src.1 src.2 < s.nextMat.length)
    (hm2 : index w dst.1 dst.2 < s.nextMat.length)
    (ht1 : index w src.1 src.2 < s.nextTemp.length)
    (ht2 : index w dst.1 dst.2 < s.nextTemp.length) :
    (apply_intent w curMat s (.MoveSwap src dst)).nextMat.getD (index w src.1 src.2) 0
      = curMat.getD (index w dst.1 dst.2) 0 ∧
    (apply_intent w curMat s (.MoveSwap src dst)).nextMat.getD (index w dst.1 dst.2) 0
      = curMat.getD (index w src.1 src.2) 0 ∧
    (apply_intent w curMat s (.MoveSwap src dst)).nextTemp.getD (index w src.1 src.2) 0
      = s.nextTemp.getD (index w dst.1 dst.2) 0 ∧
    (apply_intent w curMat s (.MoveSwap src dst)).nextTemp.getD (index w dst.1 dst.2) 0
      = s.nextTemp.getD (index w src.1 src.2) 0 :=
  moveswap_getD w curMat s src dst hblk hne hm1 hm2 ht1 ht2

/-- Witness for C2: the spec's scenario 3 — rock at 500° swaps with water
at −20° on a 2×2 world. -/
theorem C2_witness :
    intent_blocked 2 [false, false, false, false] (.MoveSwap (0, 0) (1, 0)) = false ∧
    (apply_intent 2 [2, 1, 0, 0]
        { changedDense := [false, false, false, false], changedSparse := [],
          nextMat := [2, 1, 0, 0], nextTemp := [500, -20, 0, 0] }
        (.MoveSwap (0, 0) (1, 0))).nextTemp.getD (index 2 1 0) 0 = 500 := by
  refine ⟨by decide, ?_⟩
  have h := (C2_moveswap_semantics 2 [2, 1, 0, 0]
      { changedDense := [false, false, false, false], changedSparse := [],
        nextMat := [2, 1, 0, 0], nextTemp := [500, -20, 0, 0] }
      (0, 0) (1, 0) (by decide) (by decide) (by decide) (by decide)
      (by decide) (by decide)).2.2.2
  exact h.trans (by decide)

/-! ## DeltaTemp lemmas -/

theorem getD_replicate {α : Type _} (n i : Nat) (d : α) :
    (List.replicate n d).getD i d = d := by
  rw [List.getD_eq_getElem?_getD, List.getElem?_replicate]
  split <;> rfl

theorem index_lt (w h x y : Nat) (hx : x < w) (hy : y < h) : index w x y < w * h := by
  unfold index
  calc y * w + x < y * w + w := by omega
    _ = (y + 1) * w := by ring
    _ ≤ h * w := Nat.mul_le_mul_right w hy
    _ = w * h := Nat.mul_comm h w

theorem addFold_length (delta : List ℚ) (l : List Nat) :
    ∀ t : List ℚ,
      (l.foldl (fun t i => t.set i (t.getD i 0 + delta.getD i 0)) t).length = t.length := by
  induction l with
  | nil => intro t; rfl
  | cons i l ih => intro t; rw [List.foldl_cons, ih]; simp

theorem addFold_getD_not_mem (delta : List ℚ) (l : List Nat) :
    ∀ (t : List ℚ) (j : Nat), (∀ i ∈ l, i ≠ j) →
      (l.foldl (fun t i => t.set i (t.getD i 0 + delta.getD i 0)) t).getD j 0 = t.getD j 0 := by
  induction l with
  | nil => intro t j _; rfl
  | cons i l ih =>
    intro t j h
    rw [List.foldl_cons, ih _ j (fun i hi => h i (List.mem_cons_of_mem _ hi)),
      getD_set_of_ne _ _ _ _ _ (h i (List.mem_cons_self i l))]

theorem addFold_range_getD (delta : List ℚ) (n : Nat) :
    ∀ (t : List ℚ) (j : Nat), j < n → j < t.length →
      ((List.range n).foldl (fun t i => t.set i (t.getD i 0 + delta.getD i 0)) t).getD j 0
        = t.getD j 0 + delta.getD j 0 := by
  induction n with
  | zero => intro t j hj; omega
  | succ n ih =>
    intro t j hj hlen
    rw [List.range_succ, List.foldl_append, List.foldl_cons, List.foldl_nil]
    rcases Nat.lt_or_ge j n with hlt | hge
    · rw [getD_set_of_ne _ _ _ _ _ (by omega), ih t j hlt hlen]
    · have hj' : j = n := by omega
      subst hj'
      rw [addFold_getD_not_mem delta _ _ _ (fun i hi => by
        have := List.mem_range.mp hi; omega)]
      rw [getD_set_self]
      rw [addFold_length]
      exact hlen

/-- **C5.** `Engine::apply_delta_temp` adds `delta[i]` to `next.temp[i]` for
every cell index `i < W·H`, regardless of the changed-set; it marks no cell
changed and leaves every material id unchanged (so DeltaTemp outputs in the
same tick compose additively). -/
theorem C5_delta_temp_additive (w h : Nat) (s : ApplyState) (delta : List ℚ)
    (hlen : w * h ≤ s.nextTemp.length) :
    (∀ i, i < w * h →
      (apply_delta_temp w h s delta).nextTemp.getD i 0
        = s.nextTemp.getD i 0 + delta.getD i 0) ∧
    (apply_delta_temp w h s delta).nextMat = s.nextMat ∧
    (apply_delta_temp w h s delta).changedDense = s.changedDense ∧
    (apply_delta_temp w h s delta).changedSparse = s.changedSparse := by
  refine ⟨?_, rfl, rfl, rfl⟩
  intro i hi
  exact addFold_range_getD delta (w * h) s.nextTemp i hi (by omega)

/-- Witness for C5: the spec's DeltaTemp-additivity scenario — deltas
`[1,2,3,4]` and `[10,20,30,40]` on a zero-temperature 2×2 world compose to
`[11,22,33,44]`. -/
theorem C5_witness :
    2 * 2 ≤ ([0, 0, 0, 0] : List ℚ).length ∧
    (apply_delta_temp 2 2 ⟨[], [], [], [0, 0, 0, 0]⟩ [1, 2, 3, 4]).nextTemp.getD 2 0
      = ([0, 0, 0, 0] : List ℚ).getD 2 0 + ([1, 2, 3, 4] : List ℚ).getD 2 0 ∧
    (apply_delta_temp 2 2 (apply_delta_temp 2 2 ⟨[], [], [], [0, 0, 0, 0]⟩ [1, 2, 3, 4])
        [10, 20, 30, 40]).nextTemp = [11, 22, 33, 44] := by
  refine ⟨by decide, ?_, by norm_num [apply_delta_temp, List.getD, List.range_succ]⟩
  exact (C5_delta_temp_additive 2 2 ⟨[], [], [], [0, 0, 0, 0]⟩ [1, 2, 3, 4] (by decide)).1
    2 (by decide)

/-! ## C3: DeltaTemp composed with MoveSwap -/

theorem intent_blocked_replicate (w n : Nat) (it : CellIntent) :
    intent_blocked w (List.replicate n false) it = false := by
  simp only [intent_blocked, List.any_eq_false]
  intro c _
  simp [getD_replicate]

/-- **C3 (counterexample).** The claim's "regardless of which of the two
modules is registered first" fails: on a zero-temperature 2×2 world with a
MoveSwap from `A = (1,0)` to `B = (0,0)` and a DeltaTemp adding 500 to `A`,
applying the MoveSwap module's output *first* leaves cell `B` at
temperature 0 (not `cur.temp[A] + 500`) and cell `A` at 500 (not
`cur.temp[B]`): the swap reads `next` temperatures before the delta lands. -/
theorem C3_counterexample :
    ¬((apply_outputs 2 2 [0, 0, 0, 0]
          ⟨List.replicate 4 false, [], [0, 0, 0, 0], [0, 0, 0, 0]⟩
          [.CellIntents [.MoveSwap (1, 0) (0, 0)], .DeltaTemp [0, 500, 0, 0]]).nextTemp.getD
        (index 2 0 0) 0
        = ([0, 0, 0, 0] : List ℚ).getD (index 2 1 0) 0 + 500 ∧
      (apply_outputs 2 2 [0, 0, 0, 0]
          ⟨List.replicate 4 false, [], [0, 0, 0, 0], [0, 0, 0, 0]⟩
          [.CellIntents [.MoveSwap (1, 0) (0, 0)], .DeltaTemp [0, 500, 0, 0]]).nextTemp.getD
        (index 2 1 0) 0
        = ([0, 0, 0, 0] : List ℚ).getD (index 2 0 0) 0) := by
  intro hcl
  have h2 := hcl.2
  norm_num [apply_outputs, apply_output, apply_intents, apply_intent, apply_delta_temp,
    intent_blocked, markCells, CellIntent.affected_cells, index, List.getD,
    List.range_succ, List.replicate] at h2

/-- **C3 (amended).** When the DeltaTemp output adding `δ` to cell `A` is
applied *before* the module output containing the MoveSwap from `A` to `B`
(and nothing else touches `A` or `B` this tick), then after the apply phase
cell `B`'s next temperature is `cur.temp[A] + δ` and cell `A`'s is
`cur.temp[B]`: the swap carries the this-tick thermal change with the
particle. -/
theorem C3_moveswap_carries_heat (w h : Nat) (curMat : List MaterialId)
    (curTemp : List ℚ) (A B : Nat × Nat) (delta : List ℚ) (δ : ℚ)
    (hA1 : A.1 < w) (hA2 : A.2 < h) (hB1 : B.1 < w) (hB2 : B.2 < h)
    (hne : index w A.1 A.2 ≠ index w B.1 B.2)
    (hcur : curTemp.length = w * h) (hcurm : curMat.length = w * h)
    (hdA : delta.getD (index w A.1 A.2) 0 = δ)
    (hdB : delta.getD (index w B.1 B.2) 0 = 0) :
    (apply_outputs w h curMat
        ⟨List.replicate (w * h) false, [], curMat, curTemp⟩
        [.DeltaTemp delta, .CellIntents [.MoveSwap A B]]).nextTemp.getD
      (index w B.1 B.2) 0 = curTemp.getD (index w A.1 A.2) 0 + δ ∧
    (apply_outputs w h curMat
        ⟨List.replicate (w * h) false, [], curMat, curTemp⟩
        [.DeltaTemp delta, .CellIntents [.MoveSwap A B]]).nextTemp.getD
      (index w A.1 A.2) 0 = curTemp.getD (index w B.1 B.2) 0 := by
  have hiA : index w A.1 A.2 < w * h := index_lt w h A.1 A.2 hA1 hA2
  have hiB : index w B.1 B.2 < w * h := index_lt w h B.1 B.2 hB1 hB2
  have hout : apply_outputs w h curMat
      ⟨List.replicate (w * h) false, [], curMat, curTemp⟩
      [.DeltaTemp delta, .CellIntents [.MoveSwap A B]]
      = apply_intent w curMat
          (apply_delta_temp w h ⟨List.replicate (w * h) false, [], curMat, curTemp⟩ delta)
          (.MoveSwap A B) := rfl
  set s1 : ApplyState :=
    apply_delta_temp w h ⟨List.replicate (w * h) false, [], curMat, curTemp⟩ delta with hs1
  have hs1A : s1.nextTemp.getD (index w A.1 A.2) 0
      = curTemp.getD (index w A.1 A.2) 0 + δ := by
    rw [hs1]
    have h := addFold_range_getD delta (w * h) curTemp (index w A.1 A.2) hiA (by omega)
    rw [hdA] at h
    exact h
  have hs1B : s1.nextTemp.getD (index w B.1 B.2) 0
      = curTemp.getD (index w B.1 B.2) 0 := by
    rw [hs1]
    have h := addFold_range_getD delta (w * h) curTemp (index w B.1 B.2) hiB (by omega)
    rw [hdB, add_zero] at h
    exact h
  have hs1dense : s1.changedDense = List.replicate (w * h) false := rfl
  have hs1mat : s1.nextMat = curMat := rfl
  have hs1len : s1.nextTemp.length = w * h := by
    rw [hs1]
    exact (addFold_length delta (List.range (w * h)) curTemp).trans hcur
  have hblk : intent_blocked w s1.changedDense (.MoveSwap A B) = false := by
    rw [hs1dense]; exact intent_blocked_replicate _ _ _
  have hc2 := moveswap_getD w curMat s1 A B hblk hne
    (by rw [hs1mat]; omega) (by rw [hs1mat]; omega) (by omega) (by omega)
  rw [hout]
  exact ⟨hc2.2.2.2.trans hs1A, hc2.2.2.1.trans hs1B⟩

/-- Witness for C3 (amended): the spec's scenario 6 — delta `[0,500,0,0]`
applied before `MoveSwap((1,0)→(0,0))` yields `temp[(0,0)] = 500`,
`temp[(1,0)] = 0`. -/
theorem C3_witness :
    (1 : Nat) < 2 ∧
    (apply_outputs 2 2 [0, 0, 0, 0]
        ⟨List.replicate (2 * 2) false, [], [0, 0, 0, 0], [0, 0, 0, 0]⟩
        [.DeltaTemp [0, 500, 0, 0], .CellIntents [.MoveSwap (1, 0) (0, 0)]]).nextTemp.getD
      (index 2 0 0) 0 = ([0, 0, 0, 0] : List ℚ).getD (index 2 1 0) 0 + 500 := by
  refine ⟨by decide, ?_⟩
  exact (C3_moveswap_carries_heat 2 2 [0, 0, 0, 0] [0, 0, 0, 0] (1, 0) (0, 0)
    [0, 500, 0, 0] 500 (by decide) (by decide) (by decide) (by decide) (by decide)
    (by decide) (by decide) (by decide) (by decide)).1

/-! ## C4: the changed list and the applied intents -/

theorem apply_intent_sparse (w : Nat) (curMat : List MaterialId) (s : ApplyState)
    (it : CellIntent) (hb : intent_blocked w s.changedDense it = false) :
    (apply_intent w curMat s it).changedSparse
      = s.changedSparse ++ it.affected_cells.map (fun c => index w c.1 c.2) := by
  cases it <;>
    simp only [apply_intent, hb, Bool.false_eq_true, if_false] <;>
    exact markCells_sparse w _ _

theorem tracked_intents_fst (w : Nat) (curMat : List MaterialId) (l : List CellIntent) :
    ∀ p : ApplyState × List CellIntent,
      (apply_intents_tracked w curMat p l).1 = apply_intents w curMat p.1 l := by
  induction l with
  | nil => intro p; rfl
  | cons it l ih => intro p; exact ih _

theorem tracked_intents_acc (w : Nat) (curMat : List MaterialId) (l : List CellIntent) :
    ∀ (s : ApplyState) (acc : List CellIntent),
      (apply_intents_tracked w curMat (s, acc) l).2
        = acc ++ (apply_intents_tracked w curMat (s, []) l).2 := by
  induction l with
  | nil => intro s acc; simp [apply_intents_tracked]
  | cons it l ih =>
    intro s acc
    cases hbool : intent_blocked w s.changedDense it with
    | true =>
      simp only [apply_intents_tracked, hbool, if_true]
      exact ih _ acc
    | false =>
      simp only [apply_intents_tracked, hbool, Bool.false_eq_true, if_false]
      rw [ih _ (acc ++ [it]), ih _ ([] ++ [it])]
      simp

theorem tracked_intents_sparse (w : Nat) (curMat : List MaterialId) (l : List CellIntent) :
    ∀ s : ApplyState,
      (apply_intents w curMat s l).changedSparse
        = s.changedSparse
          ++ ((apply_intents_tracked w curMat (s, []) l).2).flatMap
            (fun it => it.affected_cells.map fun c => index w c.1 c.2) := by
  induction l with
  | nil => intro s; simp [apply_intents, apply_intents_tracked]
  | cons it l ih =>
    intro s
    cases hbool : intent_blocked w s.changedDense it with
    | true =>
      have h1 : apply_intents w curMat s (it :: l) = apply_intents w curMat s l := by
        simp only [apply_intents, List.foldl_cons, apply_intent_skip w curMat s it hbool]
      have h2 : apply_intents_tracked w curMat (s, []) (it :: l)
          = apply_intents_tracked w curMat (s, []) l := by
        simp only [apply_intents_tracked, hbool, if_true,
          apply_intent_skip w curMat s it hbool]
      rw [h1, h2]
      exact ih s
    | false =>
      have h1 : apply_intents w curMat s (it :: l)
          = apply_intents w curMat (apply_intent w curMat s it) l := rfl
      have h2 : (apply_intents_tracked w curMat (s, []) (it :: l)).2
          = [it] ++ (apply_intents_tracked w curMat (apply_intent w curMat s it, []) l).2 := by
        have e : apply_intents_tracked w curMat (s, []) (it :: l)
            = apply_intents_tracked w curMat (apply_intent w curMat s it, [] ++ [it]) l := by
          simp only [apply_intents_tracked, hbool, Bool.false_eq_true, if_false]
        rw [e, tracked_intents_acc w curMat l _ ([] ++ [it])]
        simp
      rw [h1, h2, ih, apply_intent_sparse w curMat s it hbool]
      simp

theorem tracked_outputs_fst (w h : Nat) (curMat : List MaterialId)
    (outs : List ModuleOutput) :
    ∀ p : ApplyState × List CellIntent,
      (apply_outputs_tracked w h curMat p outs).1 = apply_outputs w h curMat p.1 outs := by
  induction outs with
  | nil => intro p; rfl
  | cons out outs ih =>
    intro p
    cases out with
    | CellIntents intents =>
        have h1 : apply_outputs_tracked w h curMat p (.CellIntents intents :: outs)
            = apply_outputs_tracked w h curMat
                (apply_intents_tracked w curMat p intents) outs := rfl
        have h2 : apply_outputs w h curMat p.1 (.CellIntents intents :: outs)
            = apply_outputs w h curMat (apply_intents w curMat p.1 intents) outs := rfl
        rw [h1, h2, ih, tracked_intents_fst]
    | DeltaTemp delta => exact ih _

theorem tracked_outputs_acc (w h : Nat) (curMat : List MaterialId)
    (outs : List ModuleOutput) :
    ∀ (s : ApplyState) (acc : List CellIntent),
      (apply_outputs_tracked w h curMat (s, acc) outs).2
        = acc ++ (apply_outputs_tracked w h curMat (s, []) outs).2 := by
  induction outs with
  | nil => intro s acc; simp [apply_outputs_tracked]
  | cons out outs ih =>
    intro s acc
    cases out with
    | CellIntents intents =>
        have hpair : ∀ a : List CellIntent,
            apply_intents_tracked w curMat (s, a) intents
              = (apply_intents w curMat s intents,
                  a ++ (apply_intents_tracked w curMat (s, []) intents).2) := by
          intro a
          have h1 := tracked_intents_fst w curMat intents (s, a)
          have h2 := tracked_intents_acc w curMat intents s a
          exact Prod.ext h1 h2
        have h1 : apply_outputs_tracked w h curMat (s, acc) (.CellIntents intents :: outs)
            = apply_outputs_tracked w h curMat
                (apply_intents_tracked w curMat (s, acc) intents) outs := rfl
        have h2 : apply_outputs_tracked w h curMat (s, []) (.CellIntents intents :: outs)
            = apply_outputs_tracked w h curMat
                (apply_intents_tracked w curMat (s, []) intents) outs := rfl
        rw [h1, h2, hpair acc, hpair [], ih, ih]
        simp
        exact (ih _ _).symm
    | DeltaTemp delta =>
        have h1 : apply_outputs_tracked w h curMat (s, acc) (.DeltaTemp delta :: outs)
            = apply_outputs_tracked w h curMat (apply_delta_temp w h s delta, acc) outs := rfl
        have h2 : apply_outputs_tracked w h curMat (s, []) (.DeltaTemp delta :: outs)
            = apply_outputs_tracked w h curMat (apply_delta_temp w h s delta, []) outs := rfl
        rw [h1, h2]
        exact ih _ acc

theorem tracked_outputs_sparse (w h : Nat) (curMat : List MaterialId)
    (outs : List ModuleOutput) :
    ∀ s : ApplyState,
      (apply_outputs w h curMat s outs).changedSparse
        = s.changedSparse
          ++ ((apply_outputs_tracked w h curMat (s, []) outs).2).flatMap
            (fun it => it.affected_cells.map fun c => index w c.1 c.2) := by
  induction outs with
  | nil => intro s; simp [apply_outputs, apply_outputs_tracked]
  | cons out outs ih =>
    intro s
    cases out with
    | CellIntents intents =>
        have h1 : apply_outputs w h curMat s (.CellIntents intents :: outs)
            = apply_outputs w h curMat (apply_intents w curMat s intents) outs := rfl
        have h2 : (apply_outputs_tracked w h curMat (s, []) (.CellIntents intents :: outs)).2
            = (apply_intents_tracked w curMat (s, []) intents).2
              ++ (apply_outputs_tracked w h curMat
                    (apply_intents w curMat s intents, []) outs).2 := by
          have h3 : apply_outputs_tracked w h curMat (s, []) (.CellIntents intents :: outs)
              = apply_outputs_tracked w h curMat
                  (apply_intents_tracked w curMat (s, []) intents) outs := rfl
          have h4 : apply_intents_tracked w curMat (s, []) intents
              = (apply_intents w curMat s intents,
                  (apply_intents_tracked w curMat (s, []) intents).2) :=
            Prod.ext (tracked_intents_fst w curMat intents (s, [])) rfl
          rw [h3, h4]
          exact tracked_outputs_acc w h curMat outs _ _
        rw [h1, h2, ih, tracked_intents_sparse w curMat intents s]
        simp
    | DeltaTemp delta =>
        have h1 : apply_outputs w h curMat s (.DeltaTemp delta :: outs)
            = apply_outputs w h curMat (apply_delta_temp w h s delta) outs := rfl
        have h2 : (apply_outputs_tracked w h curMat (s, []) (.DeltaTemp delta :: outs)).2
            = (apply_outputs_tracked w h curMat (apply_delta_temp w h s delta, []) outs).2 := rfl
        have h3 : (apply_delta_temp w h s delta).changedSparse = s.changedSparse := rfl
        rw [h1, h2, ih, h3]

/-- **C4.** Starting a tick with an empty changed list, the list handed to
every module's `post_run` is exactly the concatenation, in application
order, of the affected-cell indices of the applied (non-skipped) intents;
hence an index appears in it iff it is an affected cell of some applied
intent, and cells touched only by DeltaTemp outputs never appear. -/
theorem C4_post_run_changed_list (wd : World) (e : Engine) (outputs : List ModuleOutput)
    (he : e.changedSparse = []) :
    (e.step wd outputs).postChanged
      = ((apply_outputs_tracked wd.w wd.h wd.curMat
            (⟨e.changedDense, e.changedSparse, wd.curMat, wd.curTemp⟩, []) outputs).2).flatMap
          (fun it => it.affected_cells.map fun c => index wd.w c.1 c.2) ∧
    (∀ i, i ∈ (e.step wd outputs).postChanged ↔
      ∃ it ∈ (apply_outputs_tracked wd.w wd.h wd.curMat
          (⟨e.changedDense, e.changedSparse, wd.curMat, wd.curTemp⟩, []) outputs).2,
        ∃ c ∈ it.affected_cells, index wd.w c.1 c.2 = i) := by
  have hpost : (e.step wd outputs).postChanged
      = (apply_outputs wd.w wd.h wd.curMat
          ⟨e.changedDense, e.changedSparse, wd.curMat, wd.curTemp⟩ outputs).changedSparse := rfl
  have hmain := tracked_outputs_sparse wd.w wd.h wd.curMat outputs
    ⟨e.changedDense, e.changedSparse, wd.curMat, wd.curTemp⟩
  rw [hpost, hmain]
  refine ⟨by rw [he]; rfl, ?_⟩
  intro i
  rw [he]
  simp [List.mem_flatMap]

/-- Witness for C4: a lone applied `Reaction((0,1),(1,0))` on a fresh 2×2
engine yields post-run changed list `[1, 2]`. -/
theorem C4_witness :
    (Engine.new 2 2).changedSparse = [] ∧
    ((Engine.new 2 2).step ⟨2, 2, [0, 0, 0, 0], [0, 0, 0, 0], [0, 0, 0, 0], [0, 0, 0, 0]⟩
        [.CellIntents [.Reaction (0, 1) (1, 0) 1 1]]).postChanged = [2, 1] := by
  refine ⟨rfl, ?_⟩
  have h := (C4_post_run_changed_list
    ⟨2, 2, [0, 0, 0, 0], [0, 0, 0, 0], [0, 0, 0, 0], [0, 0, 0, 0]⟩ (Engine.new 2 2)
    [.CellIntents [.Reaction (0, 1) (1, 0) 1 1]] rfl).1
  rw [h]
  decide

/-! ## C10: dense/sparse agreement and the reset step -/

theorem inv_mark_step (dense : List Bool) (sparse : List Nat) (i : Nat)
    (hi : i < dense.length) (h : ChangedInv dense sparse) :
    ChangedInv (dense.set i true) (sparse ++ [i]) := by
  intro j
  rcases eq_or_ne j i with rfl | hj
  · constructor
    · intro _; simp
    · intro _; exact getD_set_self dense j true false hi
  · rw [getD_set_of_ne dense i j true false (Ne.symm hj), h j]
    simp [hj]

theorem inv_markCells (w : Nat) (cells : List (Nat × Nat)) :
    ∀ s : ApplyState, (∀ c ∈ cells, index w c.1 c.2 < s.changedDense.length) →
      ChangedInv s.changedDense s.changedSparse →
      ChangedInv (markCells w cells s).changedDense (markCells w cells s).changedSparse := by
  induction cells with
  | nil => intro s _ h; exact h
  | cons c cs ih =>
    intro s hb h
    rw [markCells_cons]
    apply ih
    · intro c' hc'
      simpa using hb c' (List.mem_cons_of_mem _ hc')
    · exact inv_mark_step _ _ _ (hb c (List.mem_cons_self c cs)) h

theorem apply_intent_dense (w : Nat) (curMat : List MaterialId) (s : ApplyState)
    (it : CellIntent) (hbool : intent_blocked w s.changedDense it = false) :
    (apply_intent w curMat s it).changedDense
      = (markCells w it.affected_cells s).changedDense := by
  cases it <;> simp [apply_intent, hbool]

theorem apply_intent_sparse_mark (w : Nat) (curMat : List MaterialId) (s : ApplyState)
    (it : CellIntent) (hbool : intent_blocked w s.changedDense it = false) :
    (apply_intent w curMat s it).changedSparse
      = (markCells w it.affected_cells s).changedSparse := by
  cases it <;> simp [apply_intent, hbool]

theorem apply_intent_dense_length (w : Nat) (curMat : List MaterialId) (s : ApplyState)
    (it : CellIntent) :
    (apply_intent w curMat s it).changedDense.length = s.changedDense.length := by
  cases hbool : intent_blocked w s.changedDense it with
  | true => rw [apply_intent_skip w curMat s it hbool]
  | false => rw [apply_intent_dense w curMat s it hbool, markCells_dense_length]

theorem inv_apply_intent (w : Nat) (curMat : List MaterialId) (s : ApplyState)
    (it : CellIntent)
    (hb : ∀ c ∈ it.affected_cells, index w c.1 c.2 < s.changedDense.length)
    (h : ChangedInv s.changedDense s.changedSparse) :
    ChangedInv (apply_intent w curMat s it).changedDense
      (apply_intent w curMat s it).changedSparse := by
  cases hbool : intent_blocked w s.changedDense it with
  | true => rw [apply_intent_skip w curMat s it hbool]; exact h
  | false =>
    rw [apply_intent_dense w curMat s it hbool, apply_intent_sparse_mark w curMat s it hbool]
    exact inv_markCells w _ s hb h

theorem inv_apply_intents (w : Nat) (curMat : List MaterialId) (l : List CellIntent) :
    ∀ s : ApplyState,
      (∀ it ∈ l, ∀ c ∈ it.affected_cells, index w c.1 c.2 < s.changedDense.length) →
      ChangedInv s.changedDense s.changedSparse →
      ChangedInv (apply_intents w curMat s l).changedDense
        (apply_intents w curMat s l).changedSparse ∧
      (apply_intents w curMat s l).changedDense.length = s.changedDense.length := by
  induction l with
  | nil => intro s _ h; exact ⟨h, rfl⟩
  | cons it l ih =>
    intro s hb h
    have hlen := apply_intent_dense_length w curMat s it
    have h1 := inv_apply_intent w curMat s it (hb it (List.mem_cons_self it l)) h
    have h2 := ih (apply_intent w curMat s it)
      (fun it' hit' c hc => by rw [hlen]; exact hb it' (List.mem_cons_of_mem _ hit') c hc) h1
    exact ⟨h2.1, h2.2.trans hlen⟩

theorem inv_apply_outputs (w h : Nat) (curMat : List MaterialId)
    (outs : List ModuleOutput) :
    ∀ s : ApplyState,
      (∀ out ∈ outs, ∀ it ∈ intentsOf out, ∀ c ∈ it.affected_cells,
        index w c.1 c.2 < s.changedDense.length) →
      ChangedInv s.changedDense s.changedSparse →
      ChangedInv (apply_outputs w h curMat s outs).changedDense
        (apply_outputs w h curMat s outs).changedSparse ∧
      (apply_outputs w h curMat s outs).changedDense.length = s.changedDense.length := by
  induction outs with
  | nil => intro s _ hinv; exact ⟨hinv, rfl⟩
  | cons out outs ih =>
    intro s hb hinv
    cases out with
    | CellIntents intents =>
        have h1 := inv_apply_intents w curMat intents s
          (fun it hit => hb _ (List.mem_cons_self _ _) it hit) hinv
        have h2 := ih (apply_intents w curMat s intents)
          (fun out' hout' it hit c hc => by
            rw [h1.2]; exact hb out' (List.mem_cons_of_mem _ hout') it hit c hc) h1.1
        exact ⟨h2.1, h2.2.trans h1.2⟩
    | DeltaTemp delta =>
        have hsame : (apply_delta_temp w h s delta).changedDense = s.changedDense := rfl
        have h2 := ih (apply_delta_temp w h s delta)
          (fun out' hout' it hit c hc => by
            rw [hsame]; exact hb out' (List.mem_cons_of_mem _ hout') it hit c hc)
          (by rw [show (apply_delta_temp w h s delta).changedSparse = s.changedSparse from rfl,
                hsame]; exact hinv)
        rw [show apply_outputs w h curMat s (ModuleOutput.DeltaTemp delta :: outs)
            = apply_outputs w h curMat (apply_delta_temp w h s delta) outs from rfl]
        exact ⟨h2.1, h2.2.trans (by rw [hsame])⟩

theorem clear_fold_length (l : List Nat) :
    ∀ d : List Bool, (l.foldl (fun d i => d.set i false) d).length = d.length := by
  induction l with
  | nil => intro d; rfl
  | cons i l ih => intro d; rw [List.foldl_cons, ih]; simp

theorem clear_fold_getD (l : List Nat) :
    ∀ (d : List Bool) (j : Nat),
      ((l.foldl (fun d i => d.set i false) d).getD j false = true)
        ↔ (d.getD j false = true ∧ j ∉ l) := by
  induction l with
  | nil => intro d j; simp
  | cons i l ih =>
    intro d j
    rw [List.foldl_cons, ih]
    constructor
    · rintro ⟨h1, h2⟩
      rcases eq_or_ne i j with rfl | hne
      · exfalso
        rcases Nat.lt_or_ge i d.length with hlt | hge
        · rw [getD_set_self d i false false hlt] at h1
          exact Bool.false_ne_true h1
        · rw [List.set_eq_of_length_le hge, List.getD_eq_default d false hge] at h1
          exact Bool.false_ne_true h1
      · rw [getD_set_of_ne d i j false false hne] at h1
        exact ⟨h1, by simp [h2, Ne.symm hne]⟩
    · rintro ⟨h1, h2⟩
      have hne : i ≠ j := fun e => h2 (by simp [e.symm])
      rw [getD_set_of_ne d i j false false hne]
      exact ⟨h1, fun hmem => h2 (List.mem_cons_of_mem _ hmem)⟩

/-- **C10.** During the apply phase the dense bitmap is `true` exactly at
the indices in the sparse list (given the in-bounds affected cells under
which the Rust code runs without panicking); consequently the reset step —
clearing only the dense entries listed in the sparse list, then emptying
it — returns the engine's changed-set to all-false/empty at the end of the
step, so a fresh engine stays fresh across any sequence of steps. -/
theorem C10_changed_set_reset (wd : World) (e : Engine) (outputs : List ModuleOutput)
    (hn : e.changedDense = List.replicate (wd.w * wd.h) false)
    (hs : e.changedSparse = [])
    (hb : ∀ out ∈ outputs, ∀ it ∈ intentsOf out, ∀ c ∈ it.affected_cells,
      index wd.w c.1 c.2 < wd.w * wd.h) :
    ChangedInv
      (apply_outputs wd.w wd.h wd.curMat
        ⟨e.changedDense, e.changedSparse, wd.curMat, wd.curTemp⟩ outputs).changedDense
      (apply_outputs wd.w wd.h wd.curMat
        ⟨e.changedDense, e.changedSparse, wd.curMat, wd.curTemp⟩ outputs).changedSparse ∧
    (e.step wd outputs).engine.changedDense = List.replicate (wd.w * wd.h) false ∧
    (e.step wd outputs).engine.changedSparse = [] := by
  have hlen0 : e.changedDense.length = wd.w * wd.h := by rw [hn]; simp
  have hinv0 : ChangedInv e.changedDense e.changedSparse := by
    intro i
    rw [hn, hs, getD_replicate]
    simp
  have hmain := inv_apply_outputs wd.w wd.h wd.curMat outputs
    ⟨e.changedDense, e.changedSparse, wd.curMat, wd.curTemp⟩
    (fun out hout it hit c hc => by
      show index wd.w c.1 c.2 < e.changedDense.length
      rw [hlen0]; exact hb out hout it hit c hc)
    hinv0
  refine ⟨hmain.1, ?_, rfl⟩
  have hclear : (e.step wd outputs).engine.changedDense
      = (apply_outputs wd.w wd.h wd.curMat
          ⟨e.changedDense, e.changedSparse, wd.curMat, wd.curTemp⟩ outputs).changedSparse.foldl
          (fun d i => d.set i false)
          (apply_outputs wd.w wd.h wd.curMat
            ⟨e.changedDense, e.changedSparse, wd.curMat, wd.curTemp⟩ outputs).changedDense := rfl
  rw [hclear]
  rw [List.eq_replicate_iff]
  constructor
  · rw [clear_fold_length, hmain.2]
    exact hlen0
  · intro b hbmem
    rcases List.mem_iff_getElem.mp hbmem with ⟨k, hk, hkb⟩
    have hne : ¬((apply_outputs wd.w wd.h wd.curMat
        ⟨e.changedDense, e.changedSparse, wd.curMat, wd.curTemp⟩ outputs).changedSparse.foldl
          (fun d i => d.set i false)
          (apply_outputs wd.w wd.h wd.curMat
            ⟨e.changedDense, e.changedSparse, wd.curMat, wd.curTemp⟩ outputs).changedDense).getD
        k false = true := by
      rw [clear_fold_getD]
      rintro ⟨h1, h2⟩
      exact h2 ((hmain.1 k).mp h1)
    rw [List.getD_eq_getElem _ false hk, hkb] at hne
    exact Bool.eq_false_iff.mpr hne

/-- Witness for C10: after a tick applying one `Transform` on a fresh 2×2
engine, the changed-set is all-false/empty again. -/
theorem C10_witness :
    (Engine.new 2 2).changedDense = List.replicate (2 * 2) false ∧
    ((Engine.new 2 2).step ⟨2, 2, [0, 0, 0, 0], [0, 0, 0, 0], [0, 0, 0, 0], [0, 0, 0, 0]⟩
        [.CellIntents [.Transform (1, 1) 2]]).engine.changedDense
      = [false, false, false, false] := by
  refine ⟨rfl, ?_⟩
  have h := (C10_changed_set_reset
    ⟨2, 2, [0, 0, 0, 0], [0, 0, 0, 0], [0, 0, 0, 0], [0, 0, 0, 0]⟩ (Engine.new 2 2)
    [.CellIntents [.Transform (1, 1) 2]] rfl rfl (by decide)).2.1
  rw [h]
  decide

/-! ## C6: the post-run context -/

/-- **C6 (counterexample).** The claim says `PostRunCtx`'s temperature array
is the `next`-buffer temperatures; but `World::ctx_post_run` passes
`cell_temps.cur`.  On a 1×1 world with `cur.temp = [0]` and
`next.temp = [5]`, the context's temperature array is not the next buffer. -/
theorem C6_counterexample :
    (World.ctx_post_run ⟨1, 1, [0], [0], [0], [5]⟩).cell_temps
      ≠ (⟨1, 1, [0], [0], [0], [5]⟩ : World).nextTemp := by
  norm_num [World.ctx_post_run]

/-- **C6 (amended).** The `PostRunCtx` handed to modules during post-run
exposes both the `cur` and the `next` material-id arrays, but its
temperature array is the **cur**-buffer temperatures (the previous frame's
values), not the freshly written `next` temperatures. -/
theorem C6_post_run_ctx (wd : World) :
    wd.ctx_post_run.curr_cell_mat_ids = wd.curMat ∧
    wd.ctx_post_run.next_cell_mat_ids = wd.nextMat ∧
    wd.ctx_post_run.cell_temps = wd.curTemp :=
  ⟨rfl, rfl, rfl⟩

/-! ## Scan-order lemmas -/

theorem mem_prod_list {ys xs : List Nat} {c : Nat × Nat} :
    c ∈ ys.flatMap (fun y => xs.map fun x => (x, y)) ↔ c.1 ∈ xs ∧ c.2 ∈ ys := by
  simp only [List.mem_flatMap, List.mem_map]
  constructor
  · rintro ⟨y, hy, x, hx, rfl⟩; exact ⟨hx, hy⟩
  · rintro ⟨h1, h2⟩; exact ⟨c.2, h2, c.1, h1, rfl⟩

theorem nodup_prod_list {ys xs : List Nat} (hys : ys.Nodup) (hxs : xs.Nodup) :
    (ys.flatMap fun y => xs.map fun x => (x, y)).Nodup := by
  rw [List.nodup_flatMap]
  constructor
  · intro y _
    exact hxs.map fun a b e => (Prod.ext_iff.mp e).1
  · refine hys.imp ?_
    intro y1 y2 hne a ha1 ha2
    rcases List.mem_map.mp ha1 with ⟨x1, _, rfl⟩
    rcases List.mem_map.mp ha2 with ⟨x2, _, he⟩
    exact hne (Prod.ext_iff.mp he).2.symm

theorem scanOrder_mem (r : Fin 4) (w h : Nat) (c : Nat × Nat) :
    c ∈ scanOrder r w h ↔ c.1 < w ∧ c.2 < h := by
  have hys : ∀ y : Nat,
      (y ∈ (if r.val = 1 ∨ r.val = 2 then (List.range h).reverse else List.range h))
        ↔ y < h := by
    intro y; split <;> simp
  have hxs : ∀ x : Nat,
      (x ∈ (if r.val = 2 ∨ r.val = 3 then (List.range w).reverse else List.range w))
        ↔ x < w := by
    intro x; split <;> simp
  simp only [scanOrder]
  rw [mem_prod_list, hxs, hys]

theorem scanOrder_nodup (r : Fin 4) (w h : Nat) : (scanOrder r w h).Nodup := by
  simp only [scanOrder]
  apply nodup_prod_list <;> split <;>
    simp [List.nodup_range, List.nodup_reverse]

theorem count_eq_one_of_nodup_mem {α : Type _} [BEq α] [LawfulBEq α] {l : List α}
    {a : α} (hn : l.Nodup) (hm : a ∈ l) : l.count a = 1 := by
  induction l with
  | nil => simp at hm
  | cons b l ih =>
    rcases List.mem_cons.mp hm with rfl | hm'
    · rw [List.count_cons_self, List.count_eq_zero.mpr (List.nodup_cons.mp hn).1]
    · have hne : a ≠ b := fun e => (List.nodup_cons.mp hn).1 (e ▸ hm')
      rw [List.count_cons_of_ne hne, ih (List.nodup_cons.mp hn).2 hm']

theorem scanOrder_count (r : Fin 4) (w h : Nat) (c : Nat × Nat)
    (h1 : c.1 < w) (h2 : c.2 < h) : (scanOrder r w h).count c = 1 :=
  count_eq_one_of_nodup_mem (scanOrder_nodup r w h)
    ((scanOrder_mem r w h c).mpr ⟨h1, h2⟩)

theorem pos_inj (w x1 y1 x2 y2 : Nat) (hx1 : x1 < w) (hx2 : x2 < w)
    (he : y1 * w + x1 = y2 * w + x2) : x1 = x2 ∧ y1 = y2 := by
  have hw : 0 < w := Nat.lt_of_le_of_lt (Nat.zero_le x1) hx1
  have hm1 : (y1 * w + x1) % w = x1 := by
    rw [Nat.mul_comm y1 w, Nat.mul_add_mod]; exact Nat.mod_eq_of_lt hx1
  have hm2 : (y2 * w + x2) % w = x2 := by
    rw [Nat.mul_comm y2 w, Nat.mul_add_mod]; exact Nat.mod_eq_of_lt hx2
  have hd1 : (y1 * w + x1) / w = y1 := by
    rw [Nat.mul_comm y1 w, Nat.mul_add_div hw, Nat.div_eq_of_lt hx1, Nat.add_zero]
  have hd2 : (y2 * w + x2) / w = y2 := by
    rw [Nat.mul_comm y2 w, Nat.mul_add_div hw, Nat.div_eq_of_lt hx2, Nat.add_zero]
  exact ⟨by rw [← hm1, he, hm2], by rw [← hd1, he, hd2]⟩

/-! ## The accumulation fold of `ModuleDiffusionThermal::run` -/

theorem visit_fold_frame (w : Nat) (g : Nat × Nat → ℚ) (l : List (Nat × Nat)) :
    ∀ (d : List ℚ) (i : Nat), (∀ c ∈ l, c.2 * w + c.1 ≠ i) →
      (l.foldl (fun d c => d.set (c.2 * w + c.1) (d.getD (c.2 * w + c.1) 0 + g c)) d).getD i 0
        = d.getD i 0 := by
  induction l with
  | nil => intro d i _; rfl
  | cons c l ih =>
    intro d i hnot
    rw [List.foldl_cons, ih _ i (fun c' hc' => hnot c' (List.mem_cons_of_mem _ hc')),
      getD_set_of_ne _ _ _ _ _ (hnot c (List.mem_cons_self c l))]

theorem visit_fold_once (w : Nat) (g : Nat × Nat → ℚ) (l : List (Nat × Nat))
    (c0 : Nat × Nat) :
    ∀ d : List ℚ, l.count c0 = 1 →
      (∀ c ∈ l, c.2 * w + c.1 = c0.2 * w + c0.1 → c = c0) →
      c0.2 * w + c0.1 < d.length →
      (l.foldl (fun d c => d.set (c.2 * w + c.1) (d.getD (c.2 * w + c.1) 0 + g c)) d).getD
          (c0.2 * w + c0.1) 0
        = d.getD (c0.2 * w + c0.1) 0 + g c0 := by
  induction l with
  | nil => intro d hcount; simp at hcount
  | cons c l ih =>
    intro d hcount hinj hlen
    rcases eq_or_ne c c0 with rfl | hne
    · have hrest : l.count c = 0 := by
        rw [List.count_cons_self] at hcount
        omega
      have hnotmem : c ∉ l := List.count_eq_zero.mp hrest
      rw [List.foldl_cons,
        visit_fold_frame w g l _ _
          (fun c' hc' hpos => hnotmem ((hinj c' (List.mem_cons_of_mem _ hc') hpos) ▸ hc'))]
      exact getD_set_self _ _ _ _ hlen
    · have hpos : c.2 * w + c.1 ≠ c0.2 * w + c0.1 :=
        fun e => hne (hinj c (List.mem_cons_self c l) e)
      have hcount' : l.count c0 = 1 := by
        rw [List.count_cons_of_ne (Ne.symm hne)] at hcount
        exact hcount
      rw [List.foldl_cons,
        ih _ hcount' (fun c' hc' => hinj c' (List.mem_cons_of_mem _ hc'))
          (by rw [List.length_set]; exact hlen),
        getD_set_of_ne _ _ _ _ _ hpos]

/-- **C8.** The thermal-diffusion `run` yields, at every in-bounds cell, the
sum over the cell's in-bounds 4-neighbors of the edge conductance times the
temperature difference; out-of-bounds neighbors contribute nothing, and the
value is the same for all four randomized scan orders. -/
theorem C8_diffusion_run_flux (r : Fin 4) (w h : Nat) (m : ModuleDiffusionThermal)
    (temps : List ℚ) (x y : Nat) (hx : x < w) (hy : y < h) :
    (diffusion_run r w h m temps).getD (y * w + x) 0
      = (if 0 < y then
            m.gy.getD (gy_idx x (y - 1) w) 0
              * (temps.getD (y * w + x - w) 0 - temps.getD (y * w + x) 0) else 0)
        + (if y + 1 < h then
            m.gy.getD (gy_idx x y w) 0
              * (temps.getD (y * w + x + w) 0 - temps.getD (y * w + x) 0) else 0)
        + (if 0 < x then
            m.gx.getD (gx_idx (x - 1) y w) 0
              * (temps.getD (y * w + x - 1) 0 - temps.getD (y * w + x) 0) else 0)
        + (if x + 1 < w then
            m.gx.getD (gx_idx x y w) 0
              * (temps.getD (y * w + x + 1) 0 - temps.getD (y * w + x) 0) else 0) := by
  have hmain := visit_fold_once w (fun c => fluxAt w h m temps c.1 c.2)
    (scanOrder r w h) (x, y) (List.replicate (w * h) 0)
    (scanOrder_count r w h (x, y) hx hy)
    (fun c hc hpos => by
      have hcw : c.1 < w := ((scanOrder_mem r w h c).mp hc).1
      have := pos_inj w c.1 c.2 x y hcw hx hpos
      exact Prod.ext this.1 this.2)
    (by simpa using index_lt w h x y hx hy)
  rw [show diffusion_run r w h m temps
      = (scanOrder r w h).foldl
          (fun delta c =>
            delta.set (c.2 * w + c.1)
              (delta.getD (c.2 * w + c.1) 0 + fluxAt w h m temps c.1 c.2))
          (List.replicate (w * h) 0) from rfl]
  rw [hmain, getD_replicate, zero_add]
  rfl

/-- Witness for C8: on a 2×2 world with unit conductances and temperatures
`[1,2,3,4]`, the corner cell `(0,0)` receives flux from exactly its two
in-bounds neighbors: `1·(2−1) + 1·(3−1) = 3`. -/
theorem C8_witness :
    (0 : Nat) < 2 ∧
    (diffusion_run 0 2 2 ⟨[1, 1], [1, 1]⟩ [1, 2, 3, 4]).getD (0 * 2 + 0) 0 = 3 := by
  refine ⟨by decide, ?_⟩
  have h := C8_diffusion_run_flux 0 2 2 ⟨[1, 1], [1, 1]⟩ [1, 2, 3, 4] 0 0
    (by decide) (by decide)
  rw [h]
  norm_num [gy_idx, gx_idx, List.getD]

/-! ## C7: conductance-cache consistency -/

theorem update_gx (w h i : Nat) (diff_of : List ℚ) (f : List MaterialId)
    (m : ModuleDiffusionThermal) :
    (update_conductance_local w h i diff_of f m).gx
      = (if i % w + 1 < w then
          (if 0 < i % w then
            m.gx.set (gx_idx (i % w - 1) (i / w) w)
              (harmonic_mean (diffAt diff_of f i) (diffAt diff_of f (i - 1)))
          else m.gx).set (gx_idx (i % w) (i / w) w)
            (harmonic_mean (diffAt diff_of f i) (diffAt diff_of f (i + 1)))
        else
          if 0 < i % w then
            m.gx.set (gx_idx (i % w - 1) (i / w) w)
              (harmonic_mean (diffAt diff_of f i) (diffAt diff_of f (i - 1)))
          else m.gx) := by
  simp only [update_conductance_local, apply_ite ModuleDiffusionThermal.gx, ite_self]

theorem update_gy (w h i : Nat) (diff_of : List ℚ) (f : List MaterialId)
    (m : ModuleDiffusionThermal) :
    (update_conductance_local w h i diff_of f m).gy
      = (if i / w + 1 < h then
          (if 0 < i / w then
            m.gy.set (gy_idx (i % w) (i / w - 1) w)
              (harmonic_mean (diffAt diff_of f i) (diffAt diff_of f (i - w)))
          else m.gy).set (gy_idx (i % w) (i / w) w)
            (harmonic_mean (diffAt diff_of f i) (diffAt diff_of f (i + w)))
        else
          if 0 < i / w then
            m.gy.set (gy_idx (i % w) (i / w - 1) w)
              (harmonic_mean (diffAt diff_of f i) (diffAt diff_of f (i - w)))
          else m.gy) := by
  simp only [update_conductance_local, apply_ite ModuleDiffusionThermal.gy, ite_self]

theorem update_gx_length (w h i : Nat) (diff_of : List ℚ) (f : List MaterialId)
    (m : ModuleDiffusionThermal) :
    (update_conductance_local w h i diff_of f m).gx.length = m.gx.length := by
  rw [update_gx]
  split <;> split <;> simp

theorem update_gy_length (w h i : Nat) (diff_of : List ℚ) (f : List MaterialId)
    (m : ModuleDiffusionThermal) :
    (update_conductance_local w h i diff_of f m).gy.length = m.gy.length := by
  rw [update_gy]
  split <;> split <;> simp

theorem harmonic_mean_comm (a b : ℚ) : harmonic_mean a b = harmonic_mean b a := by
  unfold harmonic_mean
  rw [add_comm b a]
  ring_nf

theorem harmonic_mean_zero_left (b : ℚ) : harmonic_mean 0 b = 0 := by
  unfold harmonic_mean
  split <;> simp

theorem harmonic_mean_zero_right (a : ℚ) : harmonic_mean a 0 = 0 := by
  rw [harmonic_mean_comm]
  exact harmonic_mean_zero_left a

theorem pending_step (w h : Nat) (diff_of : List ℚ) (mats mats' : List MaterialId)
    (P : List Nat) (m : ModuleDiffusionThermal) (i : Nat) (hi : i < w * h)
    (hgx : m.gx.length = (w - 1) * h) (hgy : m.gy.length = w * (h - 1))
    (hpc : PartialConsistent w h diff_of mats mats' P m) :
    PartialConsistent w h diff_of mats mats' (i :: P)
      (update_conductance_local w h i diff_of mats' m) := by
  have hw : 0 < w := by
    rcases Nat.eq_zero_or_pos w with rfl | hw
    · simp at hi
    · exact hw
  have hx : i % w < w := Nat.mod_lt i hw
  have hyh : i / w < h := by
    have hi' : i < h * w := by rw [Nat.mul_comm h w]; exact hi
    exact (Nat.div_lt_iff_lt_mul hw).mpr hi'
  have hxy : i / w * w + i % w = i := by
    rw [Nat.mul_comm]; exact Nat.div_add_mod i w
  constructor
  · -- horizontal edges
    intro ex ey hex hey hcond
    rw [update_gx]
    by_cases h0 : ey * w + ex = i
    · -- the east edge out of cell i
      obtain ⟨hex_eq, hey_eq⟩ := pos_inj w ex ey (i % w) (i / w) (by omega) hx
        (by rw [hxy]; exact h0)
      rw [if_pos (by omega : i % w + 1 < w)]
      have hlen2 : (if 0 < i % w then
          m.gx.set (gx_idx (i % w - 1) (i / w) w)
            (harmonic_mean (diffAt diff_of mats' i) (diffAt diff_of mats' (i - 1)))
          else m.gx).length = (w - 1) * h := by
        split <;> simp [hgx]
      have hb : gx_idx ex ey w < (if 0 < i % w then
          m.gx.set (gx_idx (i % w - 1) (i / w) w)
            (harmonic_mean (diffAt diff_of mats' i) (diffAt diff_of mats' (i - 1)))
          else m.gx).length := by
        rw [hlen2]
        exact index_lt (w - 1) h ex ey (by omega) hey
      rw [show gx_idx (i % w) (i / w) w = gx_idx ex ey w by rw [hex_eq, hey_eq]]
      rw [getD_set_self _ _ _ _ hb]
      rw [show ey * w + ex = i from h0]
    · by_cases h1 : ey * w + ex + 1 = i
      · -- the west edge out of cell i
        obtain ⟨hex_eq, hey_eq⟩ := pos_inj w (ex + 1) ey (i % w) (i / w) hex hx
          (by rw [hxy]; omega)
        have hW : 0 < i % w := by omega
        have hpos_eq : gx_idx (i % w - 1) (i / w) w = gx_idx ex ey w := by
          rw [show i % w - 1 = ex by omega, hey_eq]
        have hbm : gx_idx ex ey w < m.gx.length := by
          rw [hgx]
          exact index_lt (w - 1) h ex ey (by omega) hey
        have hwest : (if 0 < i % w then
            m.gx.set (gx_idx (i % w - 1) (i / w) w)
              (harmonic_mean (diffAt diff_of mats' i) (diffAt diff_of mats' (i - 1)))
            else m.gx).getD (gx_idx ex ey w) 0
            = harmonic_mean (diffAt diff_of mats' i) (diffAt diff_of mats' (i - 1)) := by
          rw [if_pos hW, hpos_eq, getD_set_self _ _ _ _ hbm]
        have hval : harmonic_mean (diffAt diff_of mats' i) (diffAt diff_of mats' (i - 1))
            = harmonic_mean (diffAt diff_of mats' (ey * w + ex))
                (diffAt diff_of mats' (ey * w + ex + 1)) := by
          rw [show i - 1 = ey * w + ex by omega, show ey * w + ex + 1 = i from h1]
          exact harmonic_mean_comm _ _
        by_cases hE : i % w + 1 < w
        · rw [if_pos hE]
          have hne : gx_idx (i % w) (i / w) w ≠ gx_idx ex ey w := by
            show (i / w) * (w - 1) + i % w ≠ ey * (w - 1) + ex
            rw [← hey_eq]
            omega
          rw [getD_set_of_ne _ _ _ _ _ hne, hwest, hval]
        · rw [if_neg hE, hwest, hval]
      · -- edge not incident to cell i: value untouched
        have hcond' : ((diffAt diff_of mats' (ey * w + ex) = diffAt diff_of mats (ey * w + ex) ∧
            diffAt diff_of mats' (ey * w + ex + 1) = diffAt diff_of mats (ey * w + ex + 1)) ∨
            (ey * w + ex) ∈ P ∨ (ey * w + ex + 1) ∈ P) := by
          rcases hcond with hclean | hm0 | hm1
          · exact Or.inl hclean
          · rcases List.mem_cons.mp hm0 with he | hmem
            · exact absurd he h0
            · exact Or.inr (Or.inl hmem)
          · rcases List.mem_cons.mp hm1 with he | hmem
            · exact absurd he h1
            · exact Or.inr (Or.inr hmem)
        have hold := hpc.1 ex ey hex hey hcond'
        have hfr_e : i % w + 1 < w → gx_idx (i % w) (i / w) w ≠ gx_idx ex ey w := by
          intro hE heq
          obtain ⟨he1, he2⟩ := pos_inj (w - 1) (i % w) (i / w) ex ey (by omega) (by omega) heq
          exact h0 (by rw [← he1, ← he2]; exact hxy)
        have hfr_w : 0 < i % w → gx_idx (i % w - 1) (i / w) w ≠ gx_idx ex ey w := by
          intro hWg heq
          obtain ⟨he1, he2⟩ := pos_inj (w - 1) (i % w - 1) (i / w) ex ey (by omega) (by omega) heq
          refine h1 ?_
          have : ey * w + ex + 1 = i / w * w + i % w := by
            rw [← he1, ← he2]
            omega
          rw [this, hxy]
        split_ifs with hE hWg hWg
        · rw [getD_set_of_ne _ _ _ _ _ (hfr_e hE), getD_set_of_ne _ _ _ _ _ (hfr_w hWg)]
          exact hold
        · rw [getD_set_of_ne _ _ _ _ _ (hfr_e hE)]
          exact hold
        · rw [getD_set_of_ne _ _ _ _ _ (hfr_w hWg)]
          exact hold
        · exact hold
  · -- vertical edges
    intro ex ey hex hey hcond
    rw [update_gy]
    by_cases h0 : ey * w + ex = i
    · -- the south edge out of cell i
      obtain ⟨hex_eq, hey_eq⟩ := pos_inj w ex ey (i % w) (i / w) hex hx
        (by rw [hxy]; exact h0)
      have hS : i / w + 1 < h := by omega
      rw [if_pos hS]
      have hlen2 : (if 0 < i / w then
          m.gy.set (gy_idx (i % w) (i / w - 1) w)
            (harmonic_mean (diffAt diff_of mats' i) (diffAt diff_of mats' (i - w)))
          else m.gy).length = w * (h - 1) := by
        split <;> simp [hgy]
      have hb : gy_idx ex ey w < (if 0 < i / w then
          m.gy.set (gy_idx (i % w) (i / w - 1) w)
            (harmonic_mean (diffAt diff_of mats' i) (diffAt diff_of mats' (i - w)))
          else m.gy).length := by
        rw [hlen2]
        exact index_lt w (h - 1) ex ey hex (by omega)
      rw [show gy_idx (i % w) (i / w) w = gy_idx ex ey w by rw [hex_eq, hey_eq]]
      rw [getD_set_self _ _ _ _ hb]
      rw [show ey * w + ex = i from h0]
    · by_cases h1 : ey * w + ex + w = i
      · -- the north edge out of cell i
        have hsm : (ey + 1) * w + ex = i / w * w + i % w := by
          rw [Nat.succ_mul, hxy]
          omega
        obtain ⟨hex_eq, hey_eq⟩ := pos_inj w ex (ey + 1) (i % w) (i / w) hex hx hsm
        have hN : 0 < i / w := by omega
        have hpos_eq : gy_idx (i % w) (i / w - 1) w = gy_idx ex ey w := by
          rw [← hex_eq, show i / w - 1 = ey by omega]
        have hbm : gy_idx ex ey w < m.gy.length := by
          rw [hgy]
          exact index_lt w (h - 1) ex ey hex (by omega)
        have hnorth : (if 0 < i / w then
            m.gy.set (gy_idx (i % w) (i / w - 1) w)
              (harmonic_mean (diffAt diff_of mats' i) (diffAt diff_of mats' (i - w)))
            else m.gy).getD (gy_idx ex ey w) 0
            = harmonic_mean (diffAt diff_of mats' i) (diffAt diff_of mats' (i - w)) := by
          rw [if_pos hN, hpos_eq, getD_set_self _ _ _ _ hbm]
        have hval : harmonic_mean (diffAt diff_of mats' i) (diffAt diff_of mats' (i - w))
            = harmonic_mean (diffAt diff_of mats' (ey * w + ex))
                (diffAt diff_of mats' (ey * w + ex + w)) := by
          rw [show i - w = ey * w + ex by omega, show ey * w + ex + w = i from h1]
          exact harmonic_mean_comm _ _
        by_cases hS : i / w + 1 < h
        · rw [if_pos hS]
          have hne : gy_idx (i % w) (i / w) w ≠ gy_idx ex ey w := by
            show (i / w) * w + i % w ≠ ey * w + ex
            rw [hxy]
            omega
          rw [getD_set_of_ne _ _ _ _ _ hne, hnorth, hval]
        · rw [if_neg hS, hnorth, hval]
      · -- edge not incident to cell i: value untouched
        have hcond' : ((diffAt diff_of mats' (ey * w + ex) = diffAt diff_of mats (ey * w + ex) ∧
            diffAt diff_of mats' (ey * w + ex + w) = diffAt diff_of mats (ey * w + ex + w)) ∨
            (ey * w + ex) ∈ P ∨ (ey * w + ex + w) ∈ P) := by
          rcases hcond with hclean | hm0 | hm1
          · exact Or.inl hclean
          · rcases List.mem_cons.mp hm0 with he | hmem
            · exact absurd he h0
            · exact Or.inr (Or.inl hmem)
          · rcases List.mem_cons.mp hm1 with he | hmem
            · exact absurd he h1
            · exact Or.inr (Or.inr hmem)
        have hold := hpc.2 ex ey hex hey hcond'
        have hfr_s : gy_idx (i % w) (i / w) w ≠ gy_idx ex ey w := by
          intro heq
          obtain ⟨he1, he2⟩ := pos_inj w (i % w) (i / w) ex ey hx hex heq
          exact h0 (by rw [← he1, ← he2]; exact hxy)
        have hfr_n : 0 < i / w → gy_idx (i % w) (i / w - 1) w ≠ gy_idx ex ey w := by
          intro hNg heq
          obtain ⟨he1, he2⟩ := pos_inj w (i % w) (i / w - 1) ex ey hx hex heq
          refine h1 ?_
          have hstep : ey * w + ex + w = (ey + 1) * w + ex := by
            rw [Nat.succ_mul]
            omega
          rw [hstep, ← he1, show ey + 1 = i / w by omega]
          exact hxy
        split_ifs with hS hNg hNg
        · rw [getD_set_of_ne _ _ _ _ _ hfr_s, getD_set_of_ne _ _ _ _ _ (hfr_n hNg)]
          exact hold
        · rw [getD_set_of_ne _ _ _ _ _ hfr_s]
          exact hold
        · rw [getD_set_of_ne _ _ _ _ _ (hfr_n hNg)]
          exact hold
        · exact hold

theorem post_run_lengths (w h : Nat) (diff_of : List ℚ) (f : List MaterialId)
    (changed : List Nat) :
    ∀ m : ModuleDiffusionThermal,
      (diffusion_post_run w h diff_of f changed m).gx.length = m.gx.length ∧
      (diffusion_post_run w h diff_of f changed m).gy.length = m.gy.length := by
  induction changed with
  | nil => intro m; exact ⟨rfl, rfl⟩
  | cons j l ih =>
    intro m
    have h1 := ih (update_conductance_local w h j diff_of f m)
    exact ⟨h1.1.trans (update_gx_length w h j diff_of f m),
      h1.2.trans (update_gy_length w h j diff_of f m)⟩

theorem pending_fold (w h : Nat) (diff_of : List ℚ) (mats mats' : List MaterialId)
    (changed : List Nat) :
    ∀ (P : List Nat) (m : ModuleDiffusionThermal),
      (∀ j ∈ changed, j < w * h) →
      m.gx.length = (w - 1) * h → m.gy.length = w * (h - 1) →
      PartialConsistent w h diff_of mats mats' P m →
      PartialConsistent w h diff_of mats mats' (changed.reverse ++ P)
        (diffusion_post_run w h diff_of mats' changed m) := by
  induction changed with
  | nil => intro P m _ _ _ hpc; simpa using hpc
  | cons j l ih =>
    intro P m hb hgx hgy hpc
    have hstep := pending_step w h diff_of mats mats' P m j
      (hb j (List.mem_cons_self j l)) hgx hgy hpc
    have hrec := ih (j :: P) (update_conductance_local w h j diff_of mats' m)
      (fun j' hj' => hb j' (List.mem_cons_of_mem _ hj'))
      ((update_gx_length w h j diff_of mats' m).trans hgx)
      ((update_gy_length w h j diff_of mats' m).trans hgy)
      hstep
    rw [List.reverse_cons, List.append_assoc]
    exact hrec

theorem post_run_consistent (w h : Nat) (diff_of : List ℚ)
    (mats mats' : List MaterialId) (changed : List Nat) (m : ModuleDiffusionThermal)
    (hcons : DiffConsistent w h diff_of mats m)
    (hgx : m.gx.length = (w - 1) * h) (hgy : m.gy.length = w * (h - 1))
    (hagree : ∀ j, j ∉ changed → mats'.getD j 0 = mats.getD j 0)
    (hbound : ∀ j ∈ changed, j < w * h) :
    DiffConsistent w h diff_of mats' (diffusion_post_run w h diff_of mats' changed m) := by
  have hclean : ∀ j, j ∉ changed → diffAt diff_of mats' j = diffAt diff_of mats j := by
    intro j hj
    simp only [diffAt, hagree j hj]
  have h0 : PartialConsistent w h diff_of mats mats' [] m := by
    constructor
    · intro ex ey hex hey hcond
      rcases hcond with ⟨hc1, hc2⟩ | hm | hm
      · rw [hc1, hc2]; exact hcons.1 ex ey hex hey
      · simp at hm
      · simp at hm
    · intro ex ey hex hey hcond
      rcases hcond with ⟨hc1, hc2⟩ | hm | hm
      · rw [hc1, hc2]; exact hcons.2 ex ey hex hey
      · simp at hm
      · simp at hm
  have hfold := pending_fold w h diff_of mats mats' changed [] m hbound hgx hgy h0
  constructor
  · intro ex ey hex hey
    apply hfold.1 ex ey hex hey
    by_cases hm0 : (ey * w + ex) ∈ changed
    · exact Or.inr (Or.inl (by simp [hm0]))
    · by_cases hm1 : (ey * w + ex + 1) ∈ changed
      · exact Or.inr (Or.inr (by simp [hm1]))
      · exact Or.inl ⟨hclean _ hm0, hclean _ hm1⟩
  · intro ex ey hex hey
    apply hfold.2 ex ey hex hey
    by_cases hm0 : (ey * w + ex) ∈ changed
    · exact Or.inr (Or.inl (by simp [hm0]))
    · by_cases hm1 : (ey * w + ex + w) ∈ changed
      · exact Or.inr (Or.inr (by simp [hm1]))
      · exact Or.inl ⟨hclean _ hm0, hclean _ hm1⟩

/-! ### Initial consistency of the conductance tables -/

theorem foldl_flatMap {α β γ : Type _} (l : List α) (f : α → List β)
    (step : γ → β → γ) :
    ∀ init : γ, (l.flatMap f).foldl step init
      = l.foldl (fun acc a => (f a).foldl step acc) init := by
  induction l with
  | nil => intro init; rfl
  | cons a l ih =>
    intro init
    rw [List.flatMap_cons, List.foldl_append, ih, List.foldl_cons]

theorem setlist_fold_length (pv : List (Nat × ℚ)) :
    ∀ g : List ℚ, (pv.foldl (fun g q => g.set q.1 q.2) g).length = g.length := by
  induction pv with
  | nil => intro g; rfl
  | cons q pv ih => intro g; rw [List.foldl_cons, ih]; simp

theorem setlist_fold_frame (pv : List (Nat × ℚ)) :
    ∀ (g : List ℚ) (p : Nat), (∀ q ∈ pv, q.1 ≠ p) →
      (pv.foldl (fun g q => g.set q.1 q.2) g).getD p 0 = g.getD p 0 := by
  induction pv with
  | nil => intro g p _; rfl
  | cons q pv ih =>
    intro g p hp
    rw [List.foldl_cons, ih _ _ (fun q' hq' => hp q' (List.mem_cons_of_mem _ hq')),
      getD_set_of_ne _ _ _ _ _ (hp q (List.mem_cons_self q pv))]

theorem setlist_fold_getD (pv : List (Nat × ℚ)) :
    ∀ (g : List ℚ) (p : Nat) (v : ℚ), (p, v) ∈ pv →
      (∀ q ∈ pv, q.1 = p → q.2 = v) → p < g.length →
      (pv.foldl (fun g q => g.set q.1 q.2) g).getD p 0 = v := by
  induction pv with
  | nil => intro g p v hm; simp at hm
  | cons q pv ih =>
    intro g p v hm huniq hlen
    by_cases hm' : (p, v) ∈ pv
    · rw [List.foldl_cons]
      exact ih _ p v hm' (fun q' hq' => huniq q' (List.mem_cons_of_mem _ hq'))
        (by simpa using hlen)
    · have hq : q = (p, v) := by
        rcases List.mem_cons.mp hm with he | hmem
        · exact he.symm
        · exact absurd hmem hm'
      subst hq
      have hrest : ∀ q' ∈ pv, q'.1 ≠ p := by
        intro q' hq' he
        have hv := huniq q' (List.mem_cons_of_mem _ hq') he
        exact hm' (by rw [← he, ← hv]; exact hq')
      rw [List.foldl_cons, setlist_fold_frame pv _ _ hrest, getD_set_self _ _ _ _ hlen]

theorem grid_fold_eq (cols rows : Nat) (pos : Nat → Nat → Nat)
    (val : Nat → Nat → ℚ) (g0 : List ℚ) :
    (List.range rows).foldl
        (fun g y => (List.range cols).foldl (fun g x => g.set (pos x y) (val x y)) g) g0
      = ((List.range rows).flatMap
          (fun y => (List.range cols).map (fun x => (pos x y, val x y)))).foldl
          (fun g q => g.set q.1 q.2) g0 := by
  rw [foldl_flatMap]
  have hinner : ∀ (g : List ℚ) (y : Nat),
      ((List.range cols).map (fun x => (pos x y, val x y))).foldl
          (fun g q => g.set q.1 q.2) g
        = (List.range cols).foldl (fun g x => g.set (pos x y) (val x y)) g := by
    intro g y
    rw [List.foldl_map]
  simp only [hinner]

theorem new_gx_getD (w h : Nat) (diff_of : List ℚ) (mats : List MaterialId)
    (x y : Nat) (hx : x + 1 < w) (hy : y < h) :
    (ModuleDiffusionThermal.new w h diff_of mats).gx.getD (gx_idx x y w) 0
      = harmonic_mean (diffAt diff_of mats (y * w + x)) (diffAt diff_of mats (y * w + x + 1)) := by
  show ((List.range h).foldl
      (fun gx y => (List.range (w - 1)).foldl
        (fun gx x => gx.set (gx_idx x y w)
          (harmonic_mean (diffAt diff_of mats (y * w + x))
            (diffAt diff_of mats (y * w + x + 1)))) gx)
      (List.replicate ((w - 1) * h) 0)).getD (gx_idx x y w) 0 = _
  rw [grid_fold_eq]
  apply setlist_fold_getD
  · refine List.mem_flatMap.mpr ⟨y, List.mem_range.mpr hy, ?_⟩
    exact List.mem_map.mpr ⟨x, List.mem_range.mpr (by omega), rfl⟩
  · intro q hq he
    rcases List.mem_flatMap.mp hq with ⟨y', hy', hq'⟩
    rcases List.mem_map.mp hq' with ⟨x', hx', rfl⟩
    obtain ⟨he1, he2⟩ := pos_inj (w - 1) x' y' x y
      (List.mem_range.mp hx') (by omega) he
    rw [he1, he2]
  · simp only [List.length_replicate]
    exact index_lt (w - 1) h x y (by omega) hy

theorem new_gy_getD (w h : Nat) (diff_of : List ℚ) (mats : List MaterialId)
    (x y : Nat) (hx : x < w) (hy : y + 1 < h) :
    (ModuleDiffusionThermal.new w h diff_of mats).gy.getD (gy_idx x y w) 0
      = harmonic_mean (diffAt diff_of mats (y * w + x)) (diffAt diff_of mats (y * w + x + w)) := by
  show ((List.range (h - 1)).foldl
      (fun gy y => (List.range w).foldl
        (fun gy x => gy.set (gy_idx x y w)
          (harmonic_mean (diffAt diff_of mats (y * w + x))
            (diffAt diff_of mats (y * w + x + w)))) gy)
      (List.replicate (w * (h - 1)) 0)).getD (gy_idx x y w) 0 = _
  rw [grid_fold_eq]
  apply setlist_fold_getD
  · refine List.mem_flatMap.mpr ⟨y, List.mem_range.mpr (by omega), ?_⟩
    exact List.mem_map.mpr ⟨x, List.mem_range.mpr hx, rfl⟩
  · intro q hq he
    rcases List.mem_flatMap.mp hq with ⟨y', hy', hq'⟩
    rcases List.mem_map.mp hq' with ⟨x', hx', rfl⟩
    obtain ⟨he1, he2⟩ := pos_inj w x' y' x y (List.mem_range.mp hx') hx he
    rw [he1, he2]
  · simp only [List.length_replicate]
    exact index_lt w (h - 1) x y hx (by omega)

theorem new_consistent (w h : Nat) (diff_of : List ℚ) (mats : List MaterialId) :
    DiffConsistent w h diff_of mats (ModuleDiffusionThermal.new w h diff_of mats) :=
  ⟨fun x y hx hy => new_gx_getD w h diff_of mats x y hx hy,
   fun x y hx hy => new_gy_getD w h diff_of mats x y hx hy⟩

theorem new_gx_length (w h : Nat) (diff_of : List ℚ) (mats : List MaterialId) :
    (ModuleDiffusionThermal.new w h diff_of mats).gx.length = (w - 1) * h := by
  show ((List.range h).foldl _ (List.replicate ((w - 1) * h) 0)).length = (w - 1) * h
  rw [grid_fold_eq, setlist_fold_length]
  simp

theorem new_gy_length (w h : Nat) (diff_of : List ℚ) (mats : List MaterialId) :
    (ModuleDiffusionThermal.new w h diff_of mats).gy.length = w * (h - 1) := by
  show ((List.range (h - 1)).foldl _ (List.replicate (w * (h - 1)) 0)).length = w * (h - 1)
  rw [grid_fold_eq, setlist_fold_length]
  simp

theorem chain_consistent (w h : Nat) (diff_of : List ℚ)
    (steps : List (List Nat × List MaterialId)) :
    ∀ (mats : List MaterialId) (m : ModuleDiffusionThermal),
      DiffConsistent w h diff_of mats m →
      m.gx.length = (w - 1) * h → m.gy.length = w * (h - 1) →
      chainAgrees w h mats steps →
      DiffConsistent w h diff_of (lastMats mats steps)
        (diffusion_post_runs w h diff_of m steps) := by
  induction steps with
  | nil => intro mats m hcons _ _ _; exact hcons
  | cons st rest ih =>
    intro mats m hcons hgx hgy hchain
    obtain ⟨hb, hagree, hrest⟩ := hchain
    exact ih st.2 (diffusion_post_run w h diff_of st.2 st.1 m)
      (post_run_consistent w h diff_of mats st.2 st.1 m hcons hgx hgy hagree hb)
      ((post_run_lengths w h diff_of st.2 st.1 m).1.trans hgx)
      ((post_run_lengths w h diff_of st.2 st.1 m).2.trans hgy)
      hrest

/-- **C7.** After construction from any grid and any sequence of `post_run`
refreshes — each tick's grid agreeing with the previous one outside that
tick's changed list, with changed indices in bounds — every horizontal edge
satisfies `gx = H(diff(mat(x,y)), diff(mat(x+1,y)))` and every vertical edge
`gy = H(diff(mat(x,y)), diff(mat(x,y+1)))` over the latest (next-frame)
material grid; and `H` vanishes whenever either diffusivity is zero, so
every edge incident to a zero-diffusivity material has conductance 0. -/
theorem C7_conductance_consistency (w h : Nat) (diff_of : List ℚ)
    (mats0 : List MaterialId) (steps : List (List Nat × List MaterialId))
    (hchain : chainAgrees w h mats0 steps) :
    DiffConsistent w h diff_of (lastMats mats0 steps)
      (diffusion_post_runs w h diff_of
        (ModuleDiffusionThermal.new w h diff_of mats0) steps) ∧
    (∀ b : ℚ, harmonic_mean 0 b = 0) ∧ (∀ a : ℚ, harmonic_mean a 0 = 0) :=
  ⟨chain_consistent w h diff_of steps mats0 _
      (new_consistent w h diff_of mats0)
      (new_gx_length w h diff_of mats0) (new_gy_length w h diff_of mats0) hchain,
   harmonic_mean_zero_left, harmonic_mean_zero_right⟩

/-- Witness for C7: a 2×2 world, diffusivities `[0, 1/4]`, one post-run
refresh of cell 0 after its material changes from 1 to 0. -/
theorem C7_witness :
    chainAgrees 2 2 [1, 1, 1, 1] [([0], [0, 1, 1, 1])] ∧
    DiffConsistent 2 2 [0, 1/4] (lastMats [1, 1, 1, 1] [([0], [0, 1, 1, 1])])
      (diffusion_post_runs 2 2 [0, 1/4]
        (ModuleDiffusionThermal.new 2 2 [0, 1/4] [1, 1, 1, 1]) [([0], [0, 1, 1, 1])]) := by
  have hchain : chainAgrees 2 2 [1, 1, 1, 1] [([0], [0, 1, 1, 1])] := by
    refine ⟨by simp, ?_, trivial⟩
    intro j hj
    match j with
    | 0 => exact absurd (List.mem_singleton.mpr rfl) hj
    | 1 => rfl
    | 2 => rfl
    | 3 => rfl
    | n + 4 => rfl
  exact ⟨hchain, (C7_conductance_consistency 2 2 [0, 1/4] [1, 1, 1, 1]
    [([0], [0, 1, 1, 1])] hchain).1⟩

/-! ## C9: thermal transforms -/

theorem push_fold_filterMap {α : Type _} (f : α → Option CellIntent) (l : List α) :
    ∀ acc : List CellIntent,
      l.foldl (fun acc c => push_intent acc (f c)) acc = acc ++ l.filterMap f := by
  induction l with
  | nil => intro acc; simp
  | cons c l ih =>
    intro acc
    cases hf : f c with
    | some it =>
        rw [List.foldl_cons, show push_intent acc (f c) = acc ++ [it] from by rw [hf]; rfl,
          ih, List.filterMap_cons, hf]
        simp
    | none =>
        rw [List.foldl_cons, show push_intent acc (f c) = acc from by rw [hf]; rfl,
          ih, List.filterMap_cons, hf]

theorem transforms_run_intents (db : List Material) (mats : List MaterialId)
    (temps : List ℚ) (w h : Nat) (r : Fin 4) (m : ModuleTransformsThermal) :
    (transforms_run db mats temps w h r m).2
      = (scanOrder r w h).filterMap
          (transform_check db mats temps w (!m.checkerboard_toggle)) := by
  exact (push_fold_filterMap
    (transform_check db mats temps w (!m.checkerboard_toggle))
    (scanOrder r w h) []).trans (List.nil_append _)

theorem transform_check_shape (db : List Material) (mats : List MaterialId)
    (temps : List ℚ) (w : Nat) (toggle : Bool) (c : Nat × Nat) :
    ∀ it : CellIntent, transform_check db mats temps w toggle c = some it →
      ∃ out, it = CellIntent.Transform c out := by
  intro it h
  unfold transform_check hot_check at h
  dsimp only at h
  by_cases hp : (c.1 + c.2) % 2 = (if toggle then 1 else 0)
  · rw [if_pos hp] at h
    exact Option.noConfusion h
  · rw [if_neg hp] at h
    rcases hdb : db[mats.getD (index w c.1 c.2) 0]? with _ | mat
    · simp only [hdb] at h
      exact Option.noConfusion h
    · simp only [hdb] at h
      rcases hc : mat.transform_cold_mat_id with _ | cold
      · simp only [hc] at h
        rcases hh : mat.transform_hot_mat_id with _ | hot
        · simp only [hh] at h
          exact Option.noConfusion h
        · simp only [hh] at h
          by_cases ht : mat.transform_hot_temp < temps.getD (index w c.1 c.2) 0
          · rw [if_pos ht] at h
            exact ⟨hot, (Option.some.inj h).symm⟩
          · rw [if_neg ht] at h
            exact Option.noConfusion h
      · simp only [hc] at h
        by_cases hcold : temps.getD (index w c.1 c.2) 0 < mat.transform_cold_temp
        · rw [if_pos hcold] at h
          exact ⟨cold, (Option.some.inj h).symm⟩
        · rw [if_neg hcold] at h
          rcases hh : mat.transform_hot_mat_id with _ | hot
          · simp only [hh] at h
            exact Option.noConfusion h
          · simp only [hh] at h
            by_cases ht : mat.transform_hot_temp < temps.getD (index w c.1 c.2) 0
            · rw [if_pos ht] at h
              exact ⟨hot, (Option.some.inj h).symm⟩
            · rw [if_neg ht] at h
              exact Option.noConfusion h

theorem filter_cell_nil (db : List Material) (mats : List MaterialId)
    (temps : List ℚ) (w : Nat) (toggle : Bool) (cell : Nat × Nat)
    (l : List (Nat × Nat)) (hnot : cell ∉ l) :
    ((l.filterMap (transform_check db mats temps w toggle)).filter
      (isTransformOf cell)) = [] := by
  induction l with
  | nil => rfl
  | cons c l ih =>
    have hne : c ≠ cell := fun e => hnot (e ▸ List.mem_cons_self c l)
    have hrest := ih (fun hm => hnot (List.mem_cons_of_mem _ hm))
    rw [List.filterMap_cons]
    cases hf : transform_check db mats temps w toggle c with
    | none => exact hrest
    | some it =>
        obtain ⟨out, rfl⟩ := transform_check_shape db mats temps w toggle c it hf
        rw [List.filter_cons]
        have : isTransformOf cell (CellIntent.Transform c out) = false := by
          simp [isTransformOf, hne]
        rw [this]
        simp only [Bool.false_eq_true, if_false]
        exact hrest

theorem filterMap_filter_cell (db : List Material) (mats : List MaterialId)
    (temps : List ℚ) (w : Nat) (toggle : Bool) (cell : Nat × Nat)
    (l : List (Nat × Nat)) :
    l.count cell = 1 →
    ((l.filterMap (transform_check db mats temps w toggle)).filter
      (isTransformOf cell))
      = (transform_check db mats temps w toggle cell).toList := by
  induction l with
  | nil => intro hcount; simp at hcount
  | cons c l ih =>
    intro hcount
    rcases eq_or_ne c cell with rfl | hne
    · have hrest : l.count c = 0 := by
        rw [List.count_cons_self] at hcount
        omega
      have hnot : c ∉ l := List.count_eq_zero.mp hrest
      rw [List.filterMap_cons]
      cases hf : transform_check db mats temps w toggle c with
      | none => rw [filter_cell_nil db mats temps w toggle c l hnot]; rfl
      | some it =>
          obtain ⟨out, rfl⟩ := transform_check_shape db mats temps w toggle c it hf
          rw [List.filter_cons]
          have hyes : isTransformOf c (CellIntent.Transform c out) = true := by
            simp [isTransformOf]
          rw [hyes]
          simp only [if_true]
          rw [filter_cell_nil db mats temps w toggle c l hnot]
          rfl
    · have hcount' : l.count cell = 1 := by
        rw [List.count_cons_of_ne (Ne.symm hne)] at hcount
        exact hcount
      rw [List.filterMap_cons]
      cases hf : transform_check db mats temps w toggle c with
      | none => exact ih hcount'
      | some it =>
          obtain ⟨out, rfl⟩ := transform_check_shape db mats temps w toggle c it hf
          rw [List.filter_cons]
          have : isTransformOf cell (CellIntent.Transform c out) = false := by
            simp [isTransformOf, hne]
          rw [this]
          simp only [Bool.false_eq_true, if_false]
          exact ih hcount'

/-- **C9.** One `run` of the thermal-transform module: the stored
checkerboard toggle flips (so consecutive ticks use opposite phases and
each cell is parity-skipped in exactly one of any two consecutive ticks),
and for each in-bounds cell the emitted intents targeting it are: none when
the cell's `(x+y)` parity equals the current phase; otherwise
`Transform(cell, cold_target)` when the material defines a cold transform
and `temp < cold_threshold`; otherwise `Transform(cell, hot_target)` when a
hot transform is defined and `temp > hot_threshold`; otherwise none — cold
taking priority over hot. -/
theorem C9_transforms_run (db : List Material) (mats : List MaterialId)
    (temps : List ℚ) (w h : Nat) (r : Fin 4) (m : ModuleTransformsThermal) :
    (transforms_run db mats temps w h r m).1.checkerboard_toggle
      = !m.checkerboard_toggle ∧
    (∀ x y, x < w → y < h →
      ((transforms_run db mats temps w h r m).2.filter (isTransformOf (x, y)))
        = if (x + y) % 2 = (if !m.checkerboard_toggle then 1 else 0) then []
          else
            match db[mats.getD (index w x y) 0]? with
            | none => []
            | some mat =>
              match mat.transform_cold_mat_id with
              | some cold_id =>
                  if temps.getD (index w x y) 0 < mat.transform_cold_temp then
                    [CellIntent.Transform (x, y) cold_id]
                  else
                    match mat.transform_hot_mat_id with
                    | some hot_id =>
                        if mat.transform_hot_temp < temps.getD (index w x y) 0 then
                          [CellIntent.Transform (x, y) hot_id]
                        else []
                    | none => []
              | none =>
                  match mat.transform_hot_mat_id with
                  | some hot_id =>
                      if mat.transform_hot_temp < temps.getD (index w x y) 0 then
                        [CellIntent.Transform (x, y) hot_id]
                      else []
                  | none => []) ∧
    (∀ x y : Nat,
      ((x + y) % 2 = (if !m.checkerboard_toggle then 1 else 0)) ↔
      ¬((x + y) % 2
          = (if !(transforms_run db mats temps w h r m).1.checkerboard_toggle
             then 1 else 0))) := by
  refine ⟨rfl, ?_, ?_⟩
  · intro x y hx hy
    rw [transforms_run_intents,
      filterMap_filter_cell db mats temps w (!m.checkerboard_toggle) (x, y) _
        (scanOrder_count r w h (x, y) hx hy)]
    unfold transform_check hot_check
    dsimp only
    by_cases hp : (x + y) % 2 = (if !m.checkerboard_toggle then 1 else 0)
    · rw [if_pos hp, if_pos hp]
      rfl
    · rw [if_neg hp, if_neg hp]
      rcases hdb : db[mats.getD (index w x y) 0]? with _ | mat
      · simp only [hdb]
        rfl
      · simp only [hdb]
        rcases hc : mat.transform_cold_mat_id with _ | cold
        · simp only [hc]
          rcases hh : mat.transform_hot_mat_id with _ | hot
          · simp only [hh]
            rfl
          · simp only [hh]
            by_cases ht : mat.transform_hot_temp < temps.getD (index w x y) 0
            · rw [if_pos ht, if_pos ht]
              rfl
            · rw [if_neg ht, if_neg ht]
              rfl
        · simp only [hc]
          by_cases hcold : temps.getD (index w x y) 0 < mat.transform_cold_temp
          · rw [if_pos hcold, if_pos hcold]
            rfl
          · rw [if_neg hcold, if_neg hcold]
            rcases hh : mat.transform_hot_mat_id with _ | hot
            · simp only [hh]
              rfl
            · simp only [hh]
              by_cases ht : mat.transform_hot_temp < temps.getD (index w x y) 0
              · rw [if_pos ht, if_pos ht]
                rfl
              · rw [if_neg ht, if_neg ht]
                rfl
  · intro x y
    have hflip : (transforms_run db mats temps w h r m).1.checkerboard_toggle
        = !m.checkerboard_toggle := rfl
    rw [hflip]
    cases m.checkerboard_toggle <;> simp

/-- Witness for C9: a single-material database whose cold transform targets
material 1 below 0°; the cell `(0,0)` at −1° (parity 0, not skipped when
the toggle flips to `true`) emits exactly `Transform((0,0), 1)`. -/
theorem C9_witness :
    (0 : Nat) < 2 ∧
    ((transforms_run [⟨some 1, 0, none, 0⟩] [0, 0, 0, 0] [-1, 0, 0, 0] 2 2 0
        ⟨false⟩).2.filter (isTransformOf (0, 0)))
      = [CellIntent.Transform (0, 0) 1] := by
  refine ⟨by decide, ?_⟩
  have h := (C9_transforms_run [⟨some 1, 0, none, 0⟩] [0, 0, 0, 0] [-1, 0, 0, 0]
    2 2 0 ⟨false⟩).2.1 0 0 (by decide) (by decide)
  rw [h]
  norm_num [index, List.getD]

end Mintage
